import Mathlib

/-!
# Treap with parent links (`src/byot/cpp/base.cpp`)

A shallow embedding of the pointer program: the C++ heap is an explicit
memory `Mem` mapping addresses to `Node` cells, a `ptr` is an optional
address (`none` is `nullptr`), and every function of the source becomes a
function on memories.  Loops and recursion that follow pointers take a fuel
argument that bounds the number of iterations / the recursion depth;
dereferencing `nullptr` or an unallocated address is undefined behaviour in
C++ and is reported as `Res.ub`.

The `int` fields `key`, `sz`, `pri` are modelled as `Int`.  Keys and
priorities are only ever compared.  The only arithmetic of the source is
`sz(n->l) + 1 + sz(n->r)` in `pull`, which the model computes exactly: this
is the `int` sum of the source as long as that sum does not overflow
(`NoOverflow`), in particular whenever the cached sizes are node counts of
trees with fewer than `2^31` nodes.  Signed overflow is undefined behaviour
in C++; statements about `pull` on cells with arbitrary cached sizes carry
the hypothesis `NoOverflow`.
-/

namespace Treap

/-! ## Memory model -/

/-- The C++ `struct ptr` wraps a raw `Node*`; `none` is `nullptr`. -/
abbrev ptr := Option Nat

/-- The C++ `struct Node` (fields in declaration order). -/
structure Node where
  key : Int
  sz : Int
  pri : Int
  l : ptr
  r : ptr
  par : ptr
deriving DecidableEq, Repr

/-- The heap: the cell stored at each allocated address. -/
abbrev Mem := Nat → Option Node

/-- Outcome of running a piece of the program: a returned value, undefined behaviour, a
failure signalled by the program itself (an exception, an abort, an explicit error
result), or an exhausted fuel bound.  The source contains no `throw`, `assert` or `abort`
and returns no error value, so no function below produces `raised`. -/
inductive Res (α : Type) where
  | ok (v : α)
  | ub
  | raised
  | outOfFuel
deriving DecidableEq, Repr

/-- Sequencing of outcomes: a fault aborts the rest of the computation. -/
def Res.bind {α β : Type} : Res α → (α → Res β) → Res β
  | .ok v, k => k v
  | .ub, _ => .ub
  | .raised, _ => .raised
  | .outOfFuel, _ => .outOfFuel

/-- The outcome is a loud failure: the program detected the fault and signalled it. -/
def Res.failsLoudly {α : Type} : Res α → Bool
  | .raised => true
  | _ => false

instance : Monad Res where
  pure := Res.ok
  bind := Res.bind

/-- Reading through a pointer (`*p`, `p->field`). -/
def deref (h : Mem) : ptr → Res Node
  | none => .ub
  | some a =>
    match h a with
    | none => .ub
    | some n => .ok n

/-- Writing a whole cell at an address. -/
def Mem.set (h : Mem) (a : Nat) (n : Node) : Mem :=
  fun b => if b = a then some n else h b

/-- The memory with no allocated cell. -/
def Mem.empty : Mem := fun _ => none

/-- The constructor `Node(int key)`: the priority drawn from `mt()` is a parameter. -/
def Node.single (key pri : Int) : Node :=
  { key := key, sz := 1, pri := pri, l := none, r := none, par := none }

/-! ## The functions of the source -/

/-- The loop `for (n = n->r; n->l; n = n->l);` of `succ`, entered with `n = a`. -/
def succDown (h : Mem) : Nat → Nat → Res ptr
  | 0, _ => .outOfFuel
  | f + 1, a => do
    let n ← deref h (some a)
    match n.l with
    | some b => succDown h f b
    | none => pure (some a)

/-- The branch `while (n->par && n->par->r == n) n = n->par; n = n->par;` of `succ`. -/
def succUp (h : Mem) : Nat → Nat → Res ptr
  | 0, _ => .outOfFuel
  | f + 1, a => do
    let n ← deref h (some a)
    match n.par with
    | none => pure none
    | some p => do
      let pn ← deref h (some p)
      if pn.r = some a then succUp h f p else pure (some p)

/-- The function `ptr succ(ptr n)`. -/
def succ (h : Mem) (f : Nat) : ptr → Res ptr
  | none => .ub
  | some a => do
    let n ← deref h (some a)
    match n.r with
    | some b => succDown h f b
    | none => succUp h f a

/-- The loop `for (n = n->l; n->r; n = n->r);` of `pred`, entered with `n = a`. -/
def predDown (h : Mem) : Nat → Nat → Res ptr
  | 0, _ => .outOfFuel
  | f + 1, a => do
    let n ← deref h (some a)
    match n.r with
    | some b => predDown h f b
    | none => pure (some a)

/-- The branch `while (n->par && n == n->par->l) n = n->par; n = n->par;` of `pred`. -/
def predUp (h : Mem) : Nat → Nat → Res ptr
  | 0, _ => .outOfFuel
  | f + 1, a => do
    let n ← deref h (some a)
    match n.par with
    | none => pure none
    | some p => do
      let pn ← deref h (some p)
      if some a = pn.l then predUp h f p else pure (some p)

/-- The function `ptr pred(ptr n)`. -/
def pred (h : Mem) (f : Nat) : ptr → Res ptr
  | none => .ub
  | some a => do
    let n ← deref h (some a)
    match n.l with
    | some b => predDown h f b
    | none => predUp h f a

/-- The function `int sz(ptr n)`. -/
def sz (h : Mem) : ptr → Res Int
  | none => pure 0
  | some a => do
    let n ← deref h (some a)
    pure n.sz

/-- The statement `if (c) c->par = n;` of `pull`. -/
def setParent (h : Mem) (a : Nat) : ptr → Res Mem
  | none => pure h
  | some c => do
    let cn ← deref h (some c)
    pure (h.set c { cn with par := some a })

/-- The function `ptr pull(ptr n)`; every field is read again after each write.  The new
size is the exact sum of the cached sizes plus one, which is what the `int` expression of
the source evaluates to whenever it does not overflow. -/
def pull (h : Mem) : ptr → Res (Mem × ptr)
  | none => pure (h, none)
  | some a => do
    let n0 ← deref h (some a)
    let h1 ← setParent h a n0.l
    let n1 ← deref h1 (some a)
    let h2 ← setParent h1 a n1.r
    let n2 ← deref h2 (some a)
    let sl ← sz h2 n2.l
    let sr ← sz h2 n2.r
    pure (h2.set a { n2 with sz := sl + 1 + sr }, some a)

/-- The function `ptr merge(ptr l, ptr r)`; the fuel bounds the recursion depth. -/
def merge (h : Mem) : Nat → ptr → ptr → Res (Mem × ptr)
  | _, none, r => pure (h, r)
  | _, some a, none => pure (h, some a)
  | 0, some _, some _ => .outOfFuel
  | f + 1, some a, some b => do
    let ln ← deref h (some a)
    let rn ← deref h (some b)
    if ln.pri > rn.pri then do
      let (h1, m) ← merge h f ln.r (some b)
      let ln1 ← deref h1 (some a)
      pull (h1.set a { ln1 with r := m }) (some a)
    else do
      let (h1, m) ← merge h f (some a) rn.l
      let rn1 ← deref h1 (some b)
      pull (h1.set b { rn1 with l := m }) (some b)

/-- The function `ptr mn(ptr n)`; the fuel bounds the recursion depth. -/
def mn (h : Mem) : Nat → ptr → Res ptr
  | 0, _ => .outOfFuel
  | f + 1, n => do
    let nd ← deref h n
    match nd.l with
    | some b => mn h f (some b)
    | none => pure n

/-- The function `ptr begin(ptr n)`. -/
def ptrBegin (h : Mem) (f : Nat) (n : ptr) : Res ptr := mn h f n

/-- The function `ptr end(ptr)`. -/
def ptrEnd (_ : ptr) : ptr := none

/-- The construction loop of `main`: each step allocates `new Node(key)` at a fresh
address `a` (chosen by the allocator, with the priority `mt()` returned) and runs
`treap = merge(treap, new Node(key))`. -/
def mainLoop (f : Nat) : List (Nat × Int × Int) → Mem × ptr → Res (Mem × ptr)
  | [], s => pure s
  | (a, k, p) :: rest, (h, t) => do
    let s1 ← merge (h.set a (Node.single k p)) f t (some a)
    mainLoop f rest s1

/-- Steps `it != end; ++it` of the range-`for` of `main`, from cursor `it`: the addresses
visited.  `g` is the fuel of each `succ`, the second argument bounds the number of steps. -/
def forward (h : Mem) (g : Nat) : Nat → ptr → Res (List Nat)
  | _, none => pure []
  | 0, some _ => .outOfFuel
  | f + 1, some a => do
    let nxt ← succ h g (some a)
    let rest ← forward h g f nxt
    pure (a :: rest)

/-- The same loop driven by `--it`. -/
def backward (h : Mem) (g : Nat) : Nat → ptr → Res (List Nat)
  | _, none => pure []
  | 0, some _ => .outOfFuel
  | f + 1, some a => do
    let prv ← pred h g (some a)
    let rest ← backward h g f prv
    pure (a :: rest)

/-- The key read through a cursor (`x.key`, `it->key`). -/
def keyAt (h : Mem) (n : ptr) : Res Int := do
  let nd ← deref h n
  pure nd.key

/-- The keys read at a list of addresses, in order. -/
def keysAt (h : Mem) : List Nat → Res (List Int)
  | [] => pure []
  | a :: rest => do
    let k ← keyAt h (some a)
    let ks ← keysAt h rest
    pure (k :: ks)

/-! ## Trees laid out in memory -/

/-- The data fields of a cell that are not child links. -/
structure Info where
  key : Int
  sz : Int
  pri : Int
  par : ptr
deriving DecidableEq, Repr

/-- The shape of a tree in memory: every node records its address and its data fields;
the child links are the roots of the subtrees. -/
inductive Tree where
  | nil
  | node (l : Tree) (a : Nat) (d : Info) (r : Tree)
deriving DecidableEq, Repr

/-- The pointer to the root (`nullptr` for the empty tree). -/
def Tree.root : Tree → ptr
  | .nil => none
  | .node _ a _ _ => some a

/-- The addresses of the nodes in in-order (left, node, right). -/
def Tree.addrs : Tree → List Nat
  | .nil => []
  | .node l a _ r => l.addrs ++ a :: r.addrs

/-- The keys of the nodes in in-order. -/
def Tree.keys : Tree → List Int
  | .nil => []
  | .node l _ d r => l.keys ++ d.key :: r.keys

/-- The nodes in in-order, each with its address, key and priority. -/
def Tree.items : Tree → List (Nat × Int × Int)
  | .nil => []
  | .node l a d r => l.items ++ (a, d.key, d.pri) :: r.items

/-- The number of nodes. -/
def Tree.size : Tree → Nat
  | .nil => 0
  | .node l _ _ r => l.size + 1 + r.size

/-- The cached size of the root, `0` for the empty tree (what `sz` returns). -/
def Tree.sz : Tree → Int
  | .nil => 0
  | .node _ _ d _ => d.sz

/-- The parent link stored in the root (`nullptr` for the empty tree). -/
def Tree.par : Tree → ptr
  | .nil => none
  | .node _ _ d _ => d.par

/-- The cell of a node whose subtrees are `l` and `r`. -/
def cellOf (l : Tree) (d : Info) (r : Tree) : Node :=
  { key := d.key, sz := d.sz, pri := d.pri, l := l.root, r := r.root, par := d.par }

/-- The memory `h` holds the tree `t`: at each node's address sits the cell with that
node's data and with child links to the roots of its subtrees. -/
def Rep (h : Mem) : Tree → Prop
  | .nil => True
  | .node l a d r => h a = some (cellOf l d r) ∧ Rep h l ∧ Rep h r

/-- A treap in memory: `h` holds `t` and no cell is used twice. -/
def IsTree (h : Mem) (t : Tree) : Prop := Rep h t ∧ t.addrs.Nodup

/-- Two separate treaps in one memory. -/
def IsTrees (h : Mem) (l r : Tree) : Prop := Rep h l ∧ Rep h r ∧ (l.addrs ++ r.addrs).Nodup

/-- Invariant 1, BST order: every key in a node's left subtree is strictly less than its
key, every key in its right subtree strictly greater. -/
def BSTOrder : Tree → Prop
  | .nil => True
  | .node l _ d r =>
    (∀ k ∈ l.keys, k < d.key) ∧ (∀ k ∈ r.keys, d.key < k) ∧ BSTOrder l ∧ BSTOrder r

/-- The priority `p` is at least the priority of the root of `t`, if there is one. -/
def PriGe (p : Int) : Tree → Prop
  | .nil => True
  | .node _ _ d _ => d.pri ≤ p

/-- Invariant 2, heap order: every node's priority is greater than or equal to the
priority of each of its children. -/
def HeapOrder : Tree → Prop
  | .nil => True
  | .node l _ d r => PriGe d.pri l ∧ PriGe d.pri r ∧ HeapOrder l ∧ HeapOrder r

/-- Invariant 3, size consistency: every node has `sz = 1 + sz(left) + sz(right)`. -/
def SizeOK : Tree → Prop
  | .nil => True
  | .node l _ d r => d.sz = 1 + l.sz + r.sz ∧ SizeOK l ∧ SizeOK r

/-- The root of `t`, if present, has parent link `p`. -/
def ParIs (p : ptr) : Tree → Prop
  | .nil => True
  | .node _ _ d _ => d.par = p

/-- Invariant 4 below the root: every present child `c` of a node `n` has `c.par = n`. -/
def ParOK : Tree → Prop
  | .nil => True
  | .node l a _ r => ParIs (some a) l ∧ ParIs (some a) r ∧ ParOK l ∧ ParOK r

/-- The tree with the parent link of its root replaced (`c->par = n`). -/
def Tree.setPar (p : ptr) : Tree → Tree
  | .nil => .nil
  | .node l a d r => .node l a { d with par := p } r

/-- The effect of `pull` on the shape. -/
def pullT : Tree → Tree
  | .nil => .nil
  | .node l a d r =>
    .node (l.setPar (some a)) a { d with sz := l.sz + 1 + r.sz } (r.setPar (some a))

/-- The effect of `merge` on the shapes (the recursion of the source, without memory). -/
def mergeT : Tree → Tree → Tree
  | .nil, r => r
  | .node ll a dl lr, .nil => .node ll a dl lr
  | .node ll a dl lr, .node rl b dr rr =>
    if dl.pri > dr.pri then pullT (.node ll a dl (mergeT lr (.node rl b dr rr)))
    else pullT (.node (mergeT (.node ll a dl lr) rl) b dr rr)
termination_by l r => l.size + r.size
decreasing_by
  all_goals simp_wf
  all_goals simp only [Tree.size]
  all_goals omega

instance decRep (h : Mem) : (t : Tree) → Decidable (Rep h t)
  | .nil => isTrue trivial
  | .node l _ _ r =>
    @instDecidableAnd _ _ _ (@instDecidableAnd _ _ (decRep h l) (decRep h r))

instance decBSTOrder : (t : Tree) → Decidable (BSTOrder t)
  | .nil => isTrue trivial
  | .node l _ _ r =>
    @instDecidableAnd _ _ _
      (@instDecidableAnd _ _ _ (@instDecidableAnd _ _ (decBSTOrder l) (decBSTOrder r)))

instance decPriGe (p : Int) : (t : Tree) → Decidable (PriGe p t)
  | .nil => isTrue trivial
  | .node _ _ d _ => inferInstanceAs (Decidable (d.pri ≤ p))

instance decHeapOrder : (t : Tree) → Decidable (HeapOrder t)
  | .nil => isTrue trivial
  | .node l _ _ r =>
    @instDecidableAnd _ _ _
      (@instDecidableAnd _ _ _ (@instDecidableAnd _ _ (decHeapOrder l) (decHeapOrder r)))

instance decSizeOK : (t : Tree) → Decidable (SizeOK t)
  | .nil => isTrue trivial
  | .node l _ _ r =>
    @instDecidableAnd _ _ _ (@instDecidableAnd _ _ (decSizeOK l) (decSizeOK r))

instance decParIs (p : ptr) : (t : Tree) → Decidable (ParIs p t)
  | .nil => isTrue trivial
  | .node _ _ d _ => inferInstanceAs (Decidable (d.par = p))

instance decParOK : (t : Tree) → Decidable (ParOK t)
  | .nil => isTrue trivial
  | .node l _ _ r =>
    @instDecidableAnd _ _ _
      (@instDecidableAnd _ _ _ (@instDecidableAnd _ _ (decParOK l) (decParOK r)))

instance decIsTree (h : Mem) (t : Tree) : Decidable (IsTree h t) :=
  inferInstanceAs (Decidable (Rep h t ∧ t.addrs.Nodup))

instance decIsTrees (h : Mem) (l r : Tree) : Decidable (IsTrees h l r) :=
  inferInstanceAs (Decidable (Rep h l ∧ Rep h r ∧ (l.addrs ++ r.addrs).Nodup))

/-! ## A concrete memory

Two treaps in one memory: `exL` with keys 10, 20, 30 at addresses 1, 2, 3 (root 2) and
`exR` with keys 40, 50 at addresses 4, 5 (root 5). -/

/-- The example memory. -/
def exMem : Mem := fun a =>
  match a with
  | 1 => some { key := 10, sz := 1, pri := 4, l := none, r := none, par := some 2 }
  | 2 => some { key := 20, sz := 3, pri := 9, l := some 1, r := some 3, par := none }
  | 3 => some { key := 30, sz := 1, pri := 5, l := none, r := none, par := some 2 }
  | 4 => some { key := 40, sz := 1, pri := 6, l := none, r := none, par := some 5 }
  | 5 => some { key := 50, sz := 2, pri := 7, l := some 4, r := none, par := none }
  | _ => none

/-- The left example treap. -/
def exL : Tree :=
  .node (.node .nil 1 { key := 10, sz := 1, pri := 4, par := some 2 } .nil)
    2 { key := 20, sz := 3, pri := 9, par := none }
    (.node .nil 3 { key := 30, sz := 1, pri := 5, par := some 2 } .nil)

/-- The right example treap. -/
def exR : Tree :=
  .node (.node .nil 4 { key := 40, sz := 1, pri := 6, par := some 5 } .nil)
    5 { key := 50, sz := 2, pri := 7, par := none } .nil

/-! ## Positions in the in-order sequence -/

/-- The first address of a list, or `c` when the list is empty. -/
def headOr (c : ptr) : List Nat → ptr
  | [] => c
  | z :: _ => some z

/-- The address following the first occurrence of `x` in a list; `c` when `x` is the last
element (or does not occur). -/
def nextIn (c : ptr) : List Nat → Nat → ptr
  | [], _ => c
  | y :: ys, x => if y = x then headOr c ys else nextIn c ys x

/-! ## The input of `main` -/

/-- The nodes created by `main`: keys `(i + 1) * 10` for `i = 0, ..., 9`, at addresses
`100 + i`, with one possible draw of priorities (including a tie). -/
def mainInput : List (Nat × Int × Int) :=
  [(100, 10, 5), (101, 20, 3), (102, 30, 8), (103, 40, 1), (104, 50, 9),
   (105, 60, 2), (106, 70, 7), (107, 80, 7), (108, 90, 4), (109, 100, 6)]

/-! ## Spines, cells and shapes -/

/-- The nodes in in-order, each with its address and its whole cell. -/
def Tree.cells : Tree → List (Nat × Node)
  | .nil => []
  | .node l a d r => l.cells ++ (a, cellOf l d r) :: r.cells

/-- The in-order sequence of (key, priority) pairs. -/
def Tree.kps : Tree → List (Int × Int)
  | .nil => []
  | .node l _ d r => l.kps ++ (d.key, d.pri) :: r.kps

/-- The example memory with a third treap `exC` (keys 60, 70 at addresses 6, 7). -/
def exMem3 : Mem := fun a =>
  match a with
  | 6 => some { key := 60, sz := 2, pri := 8, l := none, r := some 7, par := none }
  | 7 => some { key := 70, sz := 1, pri := 2, l := none, r := none, par := some 6 }
  | _ => exMem a

/-- The third example treap. -/
def exC : Tree :=
  .node .nil 6 { key := 60, sz := 2, pri := 8, par := none }
    (.node .nil 7 { key := 70, sz := 1, pri := 2, par := some 6 } .nil)

/-- The values of the C++ type `int` (32 bits, two's complement). -/
def IntRange (x : Int) : Prop := -2147483648 ≤ x ∧ x ≤ 2147483647

instance decIntRange (x : Int) : Decidable (IntRange x) :=
  inferInstanceAs (Decidable (-2147483648 ≤ x ∧ x ≤ 2147483647))

/-- The expression `sz(n->l) + 1 + sz(n->r)` of `pull`, with operands `sl` and `sr`, is
evaluated without signed overflow: the operands and both sums are values of `int`.  Under
this condition the exact sum stored by `pull` is the sum the source computes. -/
def NoOverflow (sl sr : Int) : Prop :=
  IntRange sl ∧ IntRange sr ∧ IntRange (sl + 1) ∧ IntRange (sl + 1 + sr)

instance decNoOverflow (sl sr : Int) : Decidable (NoOverflow sl sr) :=
  inferInstanceAs (Decidable (IntRange sl ∧ IntRange sr ∧ IntRange (sl + 1) ∧
    IntRange (sl + 1 + sr)))

/-- A memory in which the node at address 2 has just received its children: its cached
size and the parent links of the children are stale. -/
def exStale : Mem := fun a =>
  match a with
  | 1 => some { key := 10, sz := 4, pri := 4, l := none, r := none, par := none }
  | 2 => some { key := 20, sz := 1, pri := 9, l := some 1, r := some 3, par := some 9 }
  | 3 => some { key := 30, sz := 2, pri := 5, l := none, r := none, par := some 1 }
  | _ => none

/-! ## Basic facts about outcomes and memory -/

@[simp] theorem Res.pure_eq_ok {α : Type} (v : α) : (pure v : Res α) = Res.ok v := rfl
@[simp] theorem Res.ok_bind {α β : Type} (v : α) (k : α → Res β) : (Res.ok v >>= k) = k v := rfl
@[simp] theorem Res.ub_bind {α β : Type} (k : α → Res β) : (Res.ub >>= k) = Res.ub := rfl
@[simp] theorem Res.fuel_bind {α β : Type} (k : α → Res β) :
    (Res.outOfFuel >>= k) = Res.outOfFuel := rfl

theorem deref_some {h : Mem} {a : Nat} {n : Node} (e : h a = some n) :
    deref h (some a) = Res.ok n := by
  simp [deref, e]

@[simp] theorem Mem.set_same (h : Mem) (a : Nat) (n : Node) : h.set a n a = some n := by
  simp [Mem.set]

theorem Mem.set_other (h : Mem) {a b : Nat} (n : Node) (e : b ≠ a) : h.set a n b = h b := by
  simp [Mem.set, e]

/-! ### Shapes -/

@[simp] theorem Tree.setPar_root (p : ptr) (t : Tree) : (t.setPar p).root = t.root := by
  cases t <;> rfl
@[simp] theorem Tree.setPar_addrs (p : ptr) (t : Tree) : (t.setPar p).addrs = t.addrs := by
  cases t <;> rfl
@[simp] theorem Tree.setPar_keys (p : ptr) (t : Tree) : (t.setPar p).keys = t.keys := by
  cases t <;> rfl
@[simp] theorem Tree.setPar_items (p : ptr) (t : Tree) : (t.setPar p).items = t.items := by
  cases t <;> rfl
@[simp] theorem Tree.setPar_size (p : ptr) (t : Tree) : (t.setPar p).size = t.size := by
  cases t <;> rfl
@[simp] theorem Tree.setPar_sz (p : ptr) (t : Tree) : (t.setPar p).sz = t.sz := by
  cases t <;> rfl

@[simp] theorem pullT_root (t : Tree) : (pullT t).root = t.root := by
  cases t <;> rfl
@[simp] theorem pullT_addrs (t : Tree) : (pullT t).addrs = t.addrs := by
  cases t <;> simp [pullT, Tree.addrs]
@[simp] theorem pullT_keys (t : Tree) : (pullT t).keys = t.keys := by
  cases t <;> simp [pullT, Tree.keys]
@[simp] theorem pullT_items (t : Tree) : (pullT t).items = t.items := by
  cases t <;> simp [pullT, Tree.items]
@[simp] theorem pullT_size (t : Tree) : (pullT t).size = t.size := by
  cases t <;> simp [pullT, Tree.size]
@[simp] theorem pullT_par (t : Tree) : (pullT t).par = t.par := by
  cases t <;> rfl

@[simp] theorem mergeT_nil_left (r : Tree) : mergeT .nil r = r := by
  rw [mergeT]
@[simp] theorem mergeT_nil_right (l : Tree) : mergeT l .nil = l := by
  cases l <;> rw [mergeT]
theorem mergeT_node (ll : Tree) (a : Nat) (dl : Info) (lr rl : Tree) (b : Nat) (dr : Info)
    (rr : Tree) :
    mergeT (.node ll a dl lr) (.node rl b dr rr) =
      if dl.pri > dr.pri then pullT (.node ll a dl (mergeT lr (.node rl b dr rr)))
      else pullT (.node (mergeT (.node ll a dl lr) rl) b dr rr) := by
  rw [mergeT]

theorem mergeT_addrs (l r : Tree) : (mergeT l r).addrs = l.addrs ++ r.addrs := by
  induction l, r using mergeT.induct with
  | case1 r => simp [Tree.addrs]
  | case2 ll a dl lr => simp [Tree.addrs]
  | case3 ll a dl lr rl b dr rr hp ih =>
    rw [mergeT_node, if_pos hp]; simp [Tree.addrs, ih]
  | case4 ll a dl lr rl b dr rr hp ih =>
    rw [mergeT_node, if_neg hp]; simp [Tree.addrs, ih]

/-! ### Memory and shapes -/

theorem Rep.congr {h h' : Mem} {t : Tree} (e : ∀ x ∈ t.addrs, h' x = h x) (rep : Rep h t) :
    Rep h' t := by
  induction t with
  | nil => trivial
  | node l a d r ihl ihr =>
    obtain ⟨ha, hl, hr⟩ := rep
    refine ⟨?_, ihl (fun x hx => e x ?_) hl, ihr (fun x hx => e x ?_) hr⟩
    · rw [e a (by simp [Tree.addrs]), ha]
    · simp [Tree.addrs, hx]
    · simp [Tree.addrs, hx]

theorem Tree.root_mem {t : Tree} {a : Nat} (e : t.root = some a) : a ∈ t.addrs := by
  cases t with
  | nil => simp [Tree.root] at e
  | node l b d r =>
    simp only [Tree.root, Option.some.injEq] at e
    simp [Tree.addrs, e]

theorem Tree.nodup_node {l r : Tree} {a : Nat} {d : Info} :
    (Tree.node l a d r).addrs.Nodup ↔
      l.addrs.Nodup ∧ r.addrs.Nodup ∧ a ∉ l.addrs ∧ a ∉ r.addrs ∧
        ∀ x ∈ l.addrs, x ∉ r.addrs := by
  simp only [Tree.addrs, List.nodup_append, List.nodup_cons, List.Disjoint, List.mem_cons]
  constructor
  · rintro ⟨h1, ⟨h2, h3⟩, h4⟩
    exact ⟨h1, h3, fun hx => h4 hx (Or.inl rfl), h2, fun x hx hx' => h4 hx (Or.inr hx')⟩
  · rintro ⟨h1, h2, h3, h4, h5⟩
    refine ⟨h1, ⟨h4, h2⟩, ?_⟩
    intro x hx hx'
    rcases hx' with e | hx'
    · exact h3 (e ▸ hx)
    · exact h5 x hx hx'

theorem setParent_rep {h : Mem} {t : Tree} (a : Nat) (rep : Rep h t) (nd : t.addrs.Nodup) :
    ∃ h', setParent h a t.root = Res.ok h' ∧ Rep h' (t.setPar (some a)) ∧
      (∀ x, some x ≠ t.root → h' x = h x) := by
  cases t with
  | nil => exact ⟨h, rfl, trivial, fun _ _ => rfl⟩
  | node l c d r =>
    obtain ⟨hc, hl, hr⟩ := rep
    obtain ⟨_, _, hcl, hcr, _⟩ := Tree.nodup_node.1 nd
    refine ⟨h.set c { cellOf l d r with par := some a }, ?_, ⟨?_, ?_, ?_⟩, ?_⟩
    · simp [setParent, Tree.root, deref_some hc]
    · simp [cellOf]
    · exact hl.congr (fun x hx => Mem.set_other _ _ (fun e => hcl (e ▸ hx)))
    · exact hr.congr (fun x hx => Mem.set_other _ _ (fun e => hcr (e ▸ hx)))
    · intro x hx
      exact Mem.set_other _ _ (fun e => hx (by simp [Tree.root, e]))

theorem pull_rep {h : Mem} {l r : Tree} {a : Nat} {d : Info} (rep : Rep h (.node l a d r))
    (nd : (Tree.node l a d r).addrs.Nodup) :
    ∃ h', pull h (some a) = Res.ok (h', some a) ∧ Rep h' (pullT (.node l a d r)) ∧
      (∀ x, x ≠ a → some x ≠ l.root → some x ≠ r.root → h' x = h x) := by
  obtain ⟨ha, hl, hr⟩ := rep
  obtain ⟨ndl, ndr, hal, har, hlr⟩ := Tree.nodup_node.1 nd
  obtain ⟨h1, e1, rep1, fr1⟩ := setParent_rep a hl ndl
  have ha1 : h1 a = some (cellOf l d r) := by
    rw [fr1 a (fun e => hal (Tree.root_mem e.symm)), ha]
  have hr1 : Rep h1 r :=
    hr.congr (fun x hx => fr1 x (fun e => hlr x (Tree.root_mem e.symm) hx))
  obtain ⟨h2, e2, rep2, fr2⟩ := setParent_rep a hr1 ndr
  have ha2 : h2 a = some (cellOf l d r) := by
    rw [fr2 a (fun e => har (Tree.root_mem e.symm)), ha1]
  have hl2 : Rep h2 (l.setPar (some a)) :=
    rep1.congr (fun x hx => fr2 x (fun e => hlr x (by simpa using hx) (Tree.root_mem e.symm)))
  have szl : sz h2 l.root = Res.ok l.sz := by
    cases l with
    | nil => rfl
    | node l1 c dc l2 => simp [sz, Tree.root, deref_some hl2.1, cellOf, Tree.sz]
  have szr : sz h2 r.root = Res.ok r.sz := by
    cases r with
    | nil => rfl
    | node l1 c dc l2 => simp [sz, Tree.root, deref_some rep2.1, cellOf, Tree.sz]
  refine ⟨h2.set a { cellOf l d r with sz := l.sz + 1 + r.sz }, ?_, ⟨?_, ?_, ?_⟩, ?_⟩
  · simp only [pull, deref_some ha, Res.ok_bind, Res.pure_eq_ok]
    have : (cellOf l d r).l = l.root := rfl
    rw [this, e1]
    simp only [Res.ok_bind, deref_some ha1]
    have : (cellOf l d r).r = r.root := rfl
    rw [this, e2]
    simp only [Res.ok_bind, deref_some ha2]
    have : (cellOf l d r).l = l.root := rfl
    rw [this, szl]
    have : (cellOf l d r).r = r.root := rfl
    simp only [Res.ok_bind, this, szr]
  · simp [cellOf]
  · exact hl2.congr (fun x hx => Mem.set_other _ _ (fun e => hal (by simpa [e] using hx)))
  · exact rep2.congr (fun x hx => Mem.set_other _ _ (fun e => har (by simpa [e] using hx)))
  · intro x xa xl xr
    rw [Mem.set_other _ _ xa, fr2 x xr, fr1 x xl]

theorem mergeT_root_mem (l r : Tree) {x : Nat} (e : (mergeT l r).root = some x) :
    x ∈ l.addrs ∨ x ∈ r.addrs := by
  have := Tree.root_mem e
  rw [mergeT_addrs] at this
  simpa using this

theorem merge_rep {l r : Tree} :
    ∀ {h : Mem} {f : Nat}, Rep h l → Rep h r → (l.addrs ++ r.addrs).Nodup →
      l.size + r.size ≤ f →
      ∃ h', merge h f l.root r.root = Res.ok (h', (mergeT l r).root) ∧ Rep h' (mergeT l r) ∧
        (∀ x, x ∉ l.addrs → x ∉ r.addrs → h' x = h x) := by
  induction l, r using mergeT.induct with
  | case1 r =>
    intro h f _ hr _ _
    exact ⟨h, by simp [merge, Tree.root], by simpa using hr, fun _ _ _ => rfl⟩
  | case2 ll a dl lr =>
    intro h f hl _ _ _
    exact ⟨h, by simp [merge, Tree.root], by simpa using hl, fun _ _ _ => rfl⟩
  | case3 ll a dl lr rl b dr rr hp ih =>
    intro h f hl hr nd hf
    have hla := hl.1
    have hrb := hr.1
    obtain ⟨f, rfl⟩ : ∃ g, f = g + 1 := ⟨f - 1, by simp only [Tree.size] at hf; omega⟩
    have nd' : (ll.addrs ++ a :: (lr.addrs ++ (Tree.node rl b dr rr).addrs)).Nodup := by
      simpa [Tree.addrs, List.append_assoc] using nd
    have nd2 := nd'
    rw [List.nodup_append] at nd2
    obtain ⟨ndll, nda, hdis⟩ := nd2
    rw [List.nodup_cons] at nda
    obtain ⟨ham, ndm⟩ := nda
    obtain ⟨h1, e1, rep1, fr1⟩ :=
      ih (h := h) (f := f) hl.2.2 hr ndm (by simp only [Tree.size] at hf ⊢; omega)
    have ha1 : h1 a = some (cellOf ll dl lr) := by
      rw [fr1 a (fun hx => ham (by simp [hx])) (fun hx => ham (by simp [hx])), hla]
    have all : a ∉ ll.addrs := fun hx => hdis hx (by simp)
    have rep2 : Rep (h1.set a { cellOf ll dl lr with r := (mergeT lr (.node rl b dr rr)).root })
        (.node ll a dl (mergeT lr (.node rl b dr rr))) := by
      refine ⟨by simp [cellOf], ?_, ?_⟩
      · refine hl.2.1.congr (fun x hx => ?_)
        rw [Mem.set_other _ _ (fun (e : x = a) => all (e ▸ hx))]
        exact fr1 x (fun hx' => hdis hx (by simp [hx'])) (fun hx' => hdis hx (by simp [hx']))
      · refine rep1.congr (fun x hx => Mem.set_other _ _ (fun e => ham ?_))
        rw [mergeT_addrs] at hx
        exact e ▸ hx
    have nd3 : (Tree.node ll a dl (mergeT lr (.node rl b dr rr))).addrs.Nodup := by
      simpa [Tree.addrs, mergeT_addrs] using nd'
    obtain ⟨h3, e3, rep3, fr3⟩ := pull_rep rep2 nd3
    refine ⟨h3, ?_, ?_, ?_⟩
    · rw [mergeT_node, if_pos hp, pullT_root]
      simp only [Tree.root, merge, deref_some hla, deref_some hrb, Res.ok_bind]
      have e1' : merge h f (cellOf ll dl lr).r (some b) =
          Res.ok (h1, (mergeT lr (.node rl b dr rr)).root) := e1
      have hp' : (cellOf ll dl lr).pri > (cellOf rl dr rr).pri := hp
      rw [if_pos hp', e1']
      simp only [Res.ok_bind, deref_some ha1]
      rw [e3]
    · rw [mergeT_node, if_pos hp]; exact rep3
    · intro x xl xr
      simp only [Tree.addrs, List.mem_append, List.mem_cons, not_or] at xl
      rw [fr3 x xl.2.1 ?_ ?_, Mem.set_other _ _ xl.2.1, fr1 x xl.2.2 xr]
      · exact fun e => xl.1 (Tree.root_mem e.symm)
      · intro e
        rcases mergeT_root_mem _ _ e.symm with hx | hx
        · exact xl.2.2 hx
        · exact xr hx
  | case4 ll a dl lr rl b dr rr hp ih =>
    intro h f hl hr nd hf
    have hla := hl.1
    have hrb := hr.1
    obtain ⟨f, rfl⟩ : ∃ g, f = g + 1 := ⟨f - 1, by simp only [Tree.size] at hf; omega⟩
    have nd' : (((Tree.node ll a dl lr).addrs ++ rl.addrs) ++ b :: rr.addrs).Nodup := by
      simpa [Tree.addrs, List.append_assoc] using nd
    have nd2 := nd'
    rw [List.nodup_append] at nd2
    obtain ⟨ndm, ndb, hdis⟩ := nd2
    rw [List.nodup_cons] at ndb
    obtain ⟨hbr, ndrr⟩ := ndb
    have hbm : b ∉ (Tree.node ll a dl lr).addrs ++ rl.addrs := fun hx => hdis hx (by simp)
    obtain ⟨h1, e1, rep1, fr1⟩ :=
      ih (h := h) (f := f) hl hr.2.1 ndm (by simp only [Tree.size] at hf ⊢; omega)
    have hb1 : h1 b = some (cellOf rl dr rr) := by
      rw [fr1 b (fun hx => hbm (by simp [hx])) (fun hx => hbm (by simp [hx])), hrb]
    have rep2 : Rep (h1.set b { cellOf rl dr rr with l := (mergeT (.node ll a dl lr) rl).root })
        (.node (mergeT (.node ll a dl lr) rl) b dr rr) := by
      refine ⟨by simp [cellOf], ?_, ?_⟩
      · refine rep1.congr (fun x hx => Mem.set_other _ _ (fun e => hbm ?_))
        rw [mergeT_addrs] at hx
        exact e ▸ hx
      · refine hr.2.2.congr (fun x hx => ?_)
        rw [Mem.set_other _ _ (fun (e : x = b) => hbr (e ▸ hx))]
        exact fr1 x
          (fun hx' => hdis (List.mem_append.2 (Or.inl hx')) (List.mem_cons_of_mem _ hx))
          (fun hx' => hdis (List.mem_append.2 (Or.inr hx')) (List.mem_cons_of_mem _ hx))
    have nd3 : (Tree.node (mergeT (.node ll a dl lr) rl) b dr rr).addrs.Nodup := by
      simpa [Tree.addrs, mergeT_addrs] using nd'
    obtain ⟨h3, e3, rep3, fr3⟩ := pull_rep rep2 nd3
    refine ⟨h3, ?_, ?_, ?_⟩
    · rw [mergeT_node, if_neg hp, pullT_root]
      simp only [Tree.root, merge, deref_some hla, deref_some hrb, Res.ok_bind]
      have e1' : merge h f (some a) (cellOf rl dr rr).l =
          Res.ok (h1, (mergeT (.node ll a dl lr) rl).root) := e1
      have hp' : ¬ (cellOf ll dl lr).pri > (cellOf rl dr rr).pri := hp
      rw [if_neg hp', e1']
      simp only [Res.ok_bind, deref_some hb1]
      rw [e3]
    · rw [mergeT_node, if_neg hp]; exact rep3
    · intro x xl xr
      simp only [Tree.addrs, List.mem_append, List.mem_cons, not_or] at xr
      rw [fr3 x xr.2.1 ?_ ?_, Mem.set_other _ _ xr.2.1, fr1 x xl xr.1]
      · intro e
        rcases mergeT_root_mem _ _ e.symm with hx | hx
        · exact xl hx
        · exact xr.1 hx
      · exact fun e => xr.2.2 (Tree.root_mem e.symm)

/-! ### Invariants of the merged shape -/

theorem mergeT_keys (l r : Tree) : (mergeT l r).keys = l.keys ++ r.keys := by
  induction l, r using mergeT.induct with
  | case1 r => simp [Tree.keys]
  | case2 ll a dl lr => simp [Tree.keys]
  | case3 ll a dl lr rl b dr rr hp ih =>
    rw [mergeT_node, if_pos hp]; simp [Tree.keys, ih]
  | case4 ll a dl lr rl b dr rr hp ih =>
    rw [mergeT_node, if_neg hp]; simp [Tree.keys, ih]

theorem mergeT_items (l r : Tree) : (mergeT l r).items = l.items ++ r.items := by
  induction l, r using mergeT.induct with
  | case1 r => simp [Tree.items]
  | case2 ll a dl lr => simp [Tree.items]
  | case3 ll a dl lr rl b dr rr hp ih =>
    rw [mergeT_node, if_pos hp]; simp [Tree.items, ih]
  | case4 ll a dl lr rl b dr rr hp ih =>
    rw [mergeT_node, if_neg hp]; simp [Tree.items, ih]

theorem mergeT_size (l r : Tree) : (mergeT l r).size = l.size + r.size := by
  induction l, r using mergeT.induct with
  | case1 r => simp [Tree.size]
  | case2 ll a dl lr => simp [Tree.size]
  | case3 ll a dl lr rl b dr rr hp ih =>
    rw [mergeT_node, if_pos hp, pullT_size]; simp only [Tree.size, ih]; omega
  | case4 ll a dl lr rl b dr rr hp ih =>
    rw [mergeT_node, if_neg hp, pullT_size]; simp only [Tree.size, ih]; omega

theorem Tree.addrs_length (t : Tree) : t.addrs.length = t.size := by
  induction t with
  | nil => rfl
  | node l a d r ihl ihr => simp [Tree.addrs, Tree.size, ihl, ihr]; omega

theorem Tree.keys_length (t : Tree) : t.keys.length = t.size := by
  induction t with
  | nil => rfl
  | node l a d r ihl ihr => simp [Tree.keys, Tree.size, ihl, ihr]; omega

theorem Tree.keys_eq_items (t : Tree) : t.keys = t.items.map (fun x => x.2.1) := by
  induction t with
  | nil => rfl
  | node l a d r ihl ihr => simp [Tree.keys, Tree.items, ihl, ihr]

theorem Tree.addrs_eq_items (t : Tree) : t.addrs = t.items.map (fun x => x.1) := by
  induction t with
  | nil => rfl
  | node l a d r ihl ihr => simp [Tree.addrs, Tree.items, ihl, ihr]

/-- BST order says exactly that the in-order key sequence is strictly increasing. -/
theorem BSTOrder_iff_sorted (t : Tree) : BSTOrder t ↔ t.keys.Pairwise (· < ·) := by
  induction t with
  | nil => simp [BSTOrder, Tree.keys]
  | node l a d r ihl ihr =>
    simp only [BSTOrder, Tree.keys, List.pairwise_append, List.pairwise_cons, ihl, ihr,
      List.mem_cons]
    constructor
    · rintro ⟨h1, h2, h3, h4⟩
      refine ⟨h3, ⟨h2, h4⟩, ?_⟩
      rintro x hx y (rfl | hy)
      · exact h1 x hx
      · exact lt_trans (h1 x hx) (h2 y hy)
    · rintro ⟨h1, ⟨h2, h3⟩, h4⟩
      exact ⟨fun k hk => h4 k hk d.key (Or.inl rfl), h2, h1, h3⟩

/-- In a memory holding `t`, the key stored at each address of `t` is the one recorded. -/
theorem Rep.keys_eq {h : Mem} {t : Tree} (rep : Rep h t) :
    t.keys = t.addrs.map (fun a => ((h a).map Node.key).getD 0) := by
  induction t with
  | nil => rfl
  | node l a d r ihl ihr =>
    obtain ⟨ha, hl, hr⟩ := rep
    simp [Tree.keys, Tree.addrs, ihl hl, ihr hr, ha, cellOf]

theorem PriGe_setPar (p : Int) (q : ptr) (t : Tree) : PriGe p (t.setPar q) ↔ PriGe p t := by
  cases t <;> exact Iff.rfl

theorem HeapOrder_setPar (q : ptr) (t : Tree) : HeapOrder (t.setPar q) ↔ HeapOrder t := by
  cases t <;> exact Iff.rfl

theorem HeapOrder_pullT (l r : Tree) (a : Nat) (d : Info) :
    HeapOrder (pullT (.node l a d r)) ↔ HeapOrder (.node l a d r) := by
  simp [pullT, HeapOrder, PriGe_setPar, HeapOrder_setPar]

theorem mergeT_heap (l r : Tree) (hl : HeapOrder l) (hr : HeapOrder r) :
    HeapOrder (mergeT l r) ∧ ∀ p, PriGe p l → PriGe p r → PriGe p (mergeT l r) := by
  induction l, r using mergeT.induct with
  | case1 r => rw [mergeT_nil_left]; exact ⟨hr, fun p _ h => h⟩
  | case2 ll a dl lr => rw [mergeT_nil_right]; exact ⟨hl, fun p h _ => h⟩
  | case3 ll a dl lr rl b dr rr hp ih =>
    obtain ⟨ih1, ih2⟩ := ih hl.2.2.2 hr
    rw [mergeT_node, if_pos hp]
    refine ⟨(HeapOrder_pullT _ _ _ _).2 ⟨hl.1, ih2 _ hl.2.1 (le_of_lt hp), hl.2.2.1, ih1⟩, ?_⟩
    intro p h1 _
    exact h1
  | case4 ll a dl lr rl b dr rr hp ih =>
    obtain ⟨ih1, ih2⟩ := ih hl hr.2.2.1
    rw [mergeT_node, if_neg hp]
    refine ⟨(HeapOrder_pullT _ _ _ _).2 ⟨ih2 _ (not_lt.1 hp) hr.1, hr.2.1, ih1, hr.2.2.2⟩, ?_⟩
    intro p _ h2
    exact h2

@[simp] theorem Tree.sz_nil : Tree.nil.sz = 0 := rfl
@[simp] theorem Tree.sz_node (l r : Tree) (a : Nat) (d : Info) : (Tree.node l a d r).sz = d.sz :=
  rfl
theorem pullT_sz (l r : Tree) (a : Nat) (d : Info) :
    (pullT (.node l a d r)).sz = l.sz + 1 + r.sz := rfl

theorem SizeOK_setPar (q : ptr) (t : Tree) : SizeOK (t.setPar q) ↔ SizeOK t := by
  cases t <;> exact Iff.rfl

theorem SizeOK_pullT (l r : Tree) (a : Nat) (d : Info) :
    SizeOK (pullT (.node l a d r)) ↔ SizeOK l ∧ SizeOK r := by
  simp only [pullT, SizeOK, Tree.setPar_sz, SizeOK_setPar]
  constructor
  · exact fun h => h.2
  · exact fun h => ⟨by ring, h⟩

theorem mergeT_sizeOK (l r : Tree) (hl : SizeOK l) (hr : SizeOK r) :
    SizeOK (mergeT l r) ∧ (mergeT l r).sz = l.sz + r.sz := by
  induction l, r using mergeT.induct with
  | case1 r => rw [mergeT_nil_left]; exact ⟨hr, by simp⟩
  | case2 ll a dl lr => rw [mergeT_nil_right]; exact ⟨hl, by simp⟩
  | case3 ll a dl lr rl b dr rr hp ih =>
    obtain ⟨ih1, ih2⟩ := ih hl.2.2 hr
    rw [mergeT_node, if_pos hp]
    refine ⟨(SizeOK_pullT _ _ _ _).2 ⟨hl.2.1, ih1⟩, ?_⟩
    have := hl.1
    simp only [pullT_sz, ih2, Tree.sz_node, this]
    ring
  | case4 ll a dl lr rl b dr rr hp ih =>
    obtain ⟨ih1, ih2⟩ := ih hl hr.2.1
    rw [mergeT_node, if_neg hp]
    refine ⟨(SizeOK_pullT _ _ _ _).2 ⟨ih1, hr.2.2⟩, ?_⟩
    have := hr.1
    simp only [pullT_sz, ih2, Tree.sz_node, this]
    ring

/-- In a size-consistent tree the cached size of the root is the number of nodes. -/
theorem SizeOK.sz_eq_size {t : Tree} (ok : SizeOK t) : t.sz = t.size := by
  induction t with
  | nil => rfl
  | node l a d r ihl ihr =>
    obtain ⟨h1, h2, h3⟩ := ok
    rw [Tree.sz_node, h1, ihl h2, ihr h3]
    simp only [Tree.size]
    push_cast; ring

theorem ParIs_setPar (p : ptr) (t : Tree) : ParIs p (t.setPar p) := by
  cases t <;> simp [Tree.setPar, ParIs]

theorem ParOK_setPar (q : ptr) (t : Tree) : ParOK (t.setPar q) ↔ ParOK t := by
  cases t <;> exact Iff.rfl

theorem ParOK_pullT (l r : Tree) (a : Nat) (d : Info) :
    ParOK (pullT (.node l a d r)) ↔ ParOK l ∧ ParOK r := by
  simp [pullT, ParOK, ParIs_setPar, ParOK_setPar]

theorem ParIs_pullT (p : ptr) (t : Tree) : ParIs p (pullT t) ↔ ParIs p t := by
  cases t <;> exact Iff.rfl

theorem mergeT_parOK (l r : Tree) (hl : ParOK l) (hr : ParOK r) :
    ParOK (mergeT l r) ∧ ∀ p, ParIs p l → ParIs p r → ParIs p (mergeT l r) := by
  induction l, r using mergeT.induct with
  | case1 r => rw [mergeT_nil_left]; exact ⟨hr, fun p _ h => h⟩
  | case2 ll a dl lr => rw [mergeT_nil_right]; exact ⟨hl, fun p h _ => h⟩
  | case3 ll a dl lr rl b dr rr hp ih =>
    obtain ⟨ih1, _⟩ := ih hl.2.2.2 hr
    rw [mergeT_node, if_pos hp]
    exact ⟨(ParOK_pullT _ _ _ _).2 ⟨hl.2.2.1, ih1⟩, fun p h1 _ => (ParIs_pullT _ _).2 h1⟩
  | case4 ll a dl lr rl b dr rr hp ih =>
    obtain ⟨ih1, _⟩ := ih hl hr.2.2.1
    rw [mergeT_node, if_neg hp]
    exact ⟨(ParOK_pullT _ _ _ _).2 ⟨ih1, hr.2.2.2⟩, fun p _ h2 => (ParIs_pullT _ _).2 h2⟩

theorem sz_rep {h : Mem} {t : Tree} (rep : Rep h t) : sz h t.root = Res.ok t.sz := by
  cases t with
  | nil => rfl
  | node l a d r => simp [sz, Tree.root, deref_some rep.1, cellOf, Tree.sz]

/-! ## Merge: the four invariants and the identity -/

/-- C3. Size consistency and size correctness of `merge`: if the memory holds two separate
treaps `L` and `R` in which every node has `sz = 1 + sz(left) + sz(right)`, then with
enough fuel `merge(L, R)` returns the root of a tree with the same property, the call
`sz` on that root returns `sz(L) + sz(R)`, and this is the number of nodes of the tree. -/
theorem merge_size_consistent (h : Mem) (L R : Tree) (f : Nat)
    (hLR : IsTrees h L R) (sL : SizeOK L) (sR : SizeOK R) (hf : L.size + R.size ≤ f) :
    ∃ h' T, merge h f L.root R.root = Res.ok (h', T.root) ∧ IsTree h' T ∧ SizeOK T ∧
      (∃ a b, sz h L.root = Res.ok a ∧ sz h R.root = Res.ok b ∧
        sz h' T.root = Res.ok (a + b)) ∧
      sz h' T.root = Res.ok (T.addrs.length : Int) := by
  obtain ⟨hL, hR, nd⟩ := hLR
  obtain ⟨h', e, rep, _⟩ := merge_rep hL hR nd hf
  obtain ⟨ok, esz⟩ := mergeT_sizeOK L R sL sR
  refine ⟨h', mergeT L R, e, ⟨rep, by rw [mergeT_addrs]; exact nd⟩, ok, ?_, ?_⟩
  · exact ⟨L.sz, R.sz, sz_rep hL, sz_rep hR, by rw [sz_rep rep, esz]⟩
  · rw [sz_rep rep, ok.sz_eq_size, Tree.addrs_length]

/-- C3 at the example memory. -/
theorem merge_size_consistent_witness :
    (IsTrees exMem exL exR ∧ SizeOK exL ∧ SizeOK exR) ∧
    ∃ h' T, merge exMem 5 exL.root exR.root = Res.ok (h', T.root) ∧ IsTree h' T ∧ SizeOK T ∧
      (∃ a b, sz exMem exL.root = Res.ok a ∧ sz exMem exR.root = Res.ok b ∧
        sz h' T.root = Res.ok (a + b)) ∧
      sz h' T.root = Res.ok (T.addrs.length : Int) :=
  ⟨by decide, merge_size_consistent exMem exL exR 5 (by decide) (by decide) (by decide)
    (by decide)⟩

/-- C5. Merge identity: for every memory and every pointer `T` (null included),
`merge(nullptr, T)` and `merge(T, nullptr)` both return `T` and leave the memory
untouched; in particular `merge(nullptr, nullptr)` returns `nullptr`. -/
theorem merge_identity (h : Mem) (f : Nat) (T : ptr) :
    merge h f none T = Res.ok (h, T) ∧ merge h f T none = Res.ok (h, T) ∧
      merge h f none none = Res.ok (h, none) := by
  refine ⟨?_, ?_, ?_⟩
  · cases f <;> cases T <;> rfl
  · cases f <;> cases T <;> rfl
  · cases f <;> rfl

/-! ## Successor and predecessor -/

theorem headOr_append_cons (c : ptr) (l1 l2 : List Nat) (a : Nat) :
    headOr c (l1 ++ a :: l2) = headOr (some a) l1 := by
  cases l1 <;> rfl

theorem headOr_eq_head? (l : List Nat) : headOr none l = l.head? := by
  cases l <;> rfl

theorem nextIn_append_left (c : ptr) {l1 : List Nat} (l2 : List Nat) {x : Nat} (hx : x ∈ l1) :
    nextIn c (l1 ++ l2) x = nextIn (headOr c l2) l1 x := by
  induction l1 with
  | nil => simp at hx
  | cons y ys ih =>
    simp only [List.cons_append, nextIn]
    by_cases e : y = x
    · simp only [e, if_true]
      cases ys <;> rfl
    · simp only [e, if_false]
      rcases List.mem_cons.1 hx with rfl | hx'
      · exact absurd rfl e
      · exact ih hx'

theorem nextIn_append_right (c : ptr) {l1 : List Nat} (l2 : List Nat) {x : Nat}
    (hx : x ∉ l1) : nextIn c (l1 ++ l2) x = nextIn c l2 x := by
  induction l1 with
  | nil => rfl
  | cons y ys ih =>
    simp only [List.mem_cons, not_or] at hx
    simp only [List.cons_append, nextIn, if_neg (Ne.symm hx.1)]
    exact ih hx.2

theorem nextIn_split (c : ptr) {pre post : List Nat} {x : Nat}
    (nd : (pre ++ x :: post).Nodup) : nextIn c (pre ++ x :: post) x = headOr c post := by
  have hx : x ∉ pre := fun hx =>
    (List.nodup_append.1 nd).2.2 hx (List.mem_cons_self _ _)
  rw [nextIn_append_right c _ hx]
  simp [nextIn]

theorem succDown_rep {h : Mem} {t : Tree} (c : ptr) (rep : Rep h t) :
    ∀ {a : Nat}, t.root = some a → ∀ f, t.size ≤ f →
      succDown h f a = Res.ok (headOr c t.addrs) := by
  induction t generalizing c with
  | nil => intro a e; simp [Tree.root] at e
  | node l b d r ihl _ =>
    intro a e f hf
    simp only [Tree.root, Option.some.injEq] at e
    subst e
    obtain ⟨f, rfl⟩ : ∃ g, f = g + 1 := ⟨f - 1, by simp only [Tree.size] at hf; omega⟩
    simp only [succDown, deref_some rep.1, Res.ok_bind, Tree.addrs, headOr_append_cons]
    cases l with
    | nil => rfl
    | node ll la dla lr =>
      have := ihl (some b) rep.2.1 (a := la) rfl f (by simp only [Tree.size] at hf ⊢; omega)
      simpa [cellOf, Tree.root] using this

theorem succ_sub {h : Mem} {s : Tree} :
    ∀ {c : ptr} {k : Nat}, Rep h s → s.addrs.Nodup → ParOK s →
      (∀ a, s.root = some a → ∀ f, k ≤ f → succUp h f a = Res.ok c) →
      ∀ x ∈ s.addrs, ∀ f, k + s.size ≤ f →
        succ h f (some x) = Res.ok (nextIn c s.addrs x) := by
  induction s with
  | nil => intro c k _ _ _ _ x hx; simp [Tree.addrs] at hx
  | node l a d r ihl ihr =>
    intro c k rep nd pc up x hx f hf
    obtain ⟨ha, hl, hr⟩ := rep
    obtain ⟨ndl, ndr, hal, har, hlr⟩ := Tree.nodup_node.1 nd
    obtain ⟨pl, pr, pcl, pcr⟩ := pc
    simp only [Tree.size] at hf
    simp only [Tree.addrs, List.mem_append, List.mem_cons] at hx
    rcases hx with hx | rfl | hx
    · -- `x` lies in the left subtree: its successor is found there, or is `a`
      rw [Tree.addrs, nextIn_append_left c _ hx]
      refine ihl (c := some a) (k := 1) hl ndl pcl ?_ x hx f (by omega)
      intro la ela g hg
      obtain ⟨g, rfl⟩ : ∃ g', g = g' + 1 := ⟨g - 1, by omega⟩
      cases l with
      | nil => simp [Tree.root] at ela
      | node ll la' dla lr =>
        simp only [Tree.root, Option.some.injEq] at ela
        subst ela
        have hpar : dla.par = some a := pl
        have hne : r.root ≠ some la' := fun e =>
          hlr la' (by simp [Tree.addrs]) (Tree.root_mem e)
        simp [succUp, deref_some hl.1, deref_some ha, cellOf, hpar, hne]
    · -- `x` is the root of the subtree
      rw [Tree.addrs, nextIn_append_right c _ hal]
      simp only [nextIn, if_true, succ, deref_some ha, Res.ok_bind]
      cases r with
      | nil => simpa [cellOf, Tree.root, Tree.addrs, headOr] using up x rfl f (by omega)
      | node rl b db rr =>
        have := succDown_rep c hr (a := b) rfl f (by omega)
        simpa [cellOf, Tree.root] using this
    · -- `x` lies in the right subtree: the walk up from its root passes through `a`
      have hxl : x ∉ l.addrs := fun hx' => hlr x hx' hx
      have hxa : a ≠ x := fun e => har (e ▸ hx)
      rw [Tree.addrs, nextIn_append_right c _ hxl]
      simp only [nextIn, if_neg hxa]
      refine ihr (c := c) (k := k + 1) hr ndr pcr ?_ x hx f (by omega)
      intro rb erb g hg
      obtain ⟨g, rfl⟩ : ∃ g', g = g' + 1 := ⟨g - 1, by omega⟩
      cases r with
      | nil => simp [Tree.root] at erb
      | node rl rb' drb rr =>
        simp only [Tree.root, Option.some.injEq] at erb
        subst erb
        have hpar : drb.par = some a := pr
        have := up a rfl g (by omega)
        simpa [succUp, deref_some hr.1, deref_some ha, cellOf, hpar, Tree.root] using this

theorem succ_rep {h : Mem} {t : Tree} (ht : IsTree h t) (pc : ParOK t) (rp : ParIs none t)
    {pre post : List Nat} {x : Nat} (split : t.addrs = pre ++ x :: post) {f : Nat}
    (hf : t.size < f) : succ h f (some x) = Res.ok post.head? := by
  have nd : (pre ++ x :: post).Nodup := split ▸ ht.2
  have hx : x ∈ t.addrs := by rw [split]; simp
  have := succ_sub (c := none) (k := 1) ht.1 ht.2 pc ?_ x hx f (by omega)
  · rw [this, split, nextIn_split none nd, headOr_eq_head?]
  · intro a ea g hg
    obtain ⟨g, rfl⟩ : ∃ g', g = g' + 1 := ⟨g - 1, by omega⟩
    cases t with
    | nil => simp [Tree.root] at ea
    | node l a' d r =>
      simp only [Tree.root, Option.some.injEq] at ea
      subst ea
      have hpar : d.par = none := rp
      simp [succUp, deref_some ht.1.1, cellOf, hpar]

theorem Tree.addrs_reverse_node (l r : Tree) (a : Nat) (d : Info) :
    (Tree.node l a d r).addrs.reverse = r.addrs.reverse ++ a :: l.addrs.reverse := by
  simp [Tree.addrs]

theorem predDown_rep {h : Mem} {t : Tree} (c : ptr) (rep : Rep h t) :
    ∀ {a : Nat}, t.root = some a → ∀ f, t.size ≤ f →
      predDown h f a = Res.ok (headOr c t.addrs.reverse) := by
  induction t generalizing c with
  | nil => intro a e; simp [Tree.root] at e
  | node l b d r _ ihr =>
    intro a e f hf
    simp only [Tree.root, Option.some.injEq] at e
    subst e
    obtain ⟨f, rfl⟩ : ∃ g, f = g + 1 := ⟨f - 1, by simp only [Tree.size] at hf; omega⟩
    simp only [predDown, deref_some rep.1, Res.ok_bind, Tree.addrs_reverse_node,
      headOr_append_cons]
    cases r with
    | nil => rfl
    | node rl rb drb rr =>
      have := ihr (some b) rep.2.2 (a := rb) rfl f (by simp only [Tree.size] at hf ⊢; omega)
      simpa [cellOf, Tree.root] using this

theorem pred_sub {h : Mem} {s : Tree} :
    ∀ {c : ptr} {k : Nat}, Rep h s → s.addrs.Nodup → ParOK s →
      (∀ a, s.root = some a → ∀ f, k ≤ f → predUp h f a = Res.ok c) →
      ∀ x ∈ s.addrs, ∀ f, k + s.size ≤ f →
        pred h f (some x) = Res.ok (nextIn c s.addrs.reverse x) := by
  induction s with
  | nil => intro c k _ _ _ _ x hx; simp [Tree.addrs] at hx
  | node l a d r ihl ihr =>
    intro c k rep nd pc up x hx f hf
    obtain ⟨ha, hl, hr⟩ := rep
    obtain ⟨ndl, ndr, hal, har, hlr⟩ := Tree.nodup_node.1 nd
    obtain ⟨pl, pr, pcl, pcr⟩ := pc
    simp only [Tree.size] at hf
    simp only [Tree.addrs, List.mem_append, List.mem_cons] at hx
    have har' : a ∉ r.addrs.reverse := by simpa using har
    rcases hx with hx | rfl | hx
    · -- `x` lies in the left subtree: the walk up from its root passes through `a`
      have hxr : x ∉ r.addrs.reverse := by
        simpa using hlr x hx
      have hxa : a ≠ x := fun e => hal (e ▸ hx)
      rw [Tree.addrs_reverse_node, nextIn_append_right c _ hxr]
      simp only [nextIn, if_neg hxa]
      refine ihl (c := c) (k := k + 1) hl ndl pcl ?_ x hx f (by omega)
      intro la ela g hg
      obtain ⟨g, rfl⟩ : ∃ g', g = g' + 1 := ⟨g - 1, by omega⟩
      cases l with
      | nil => simp [Tree.root] at ela
      | node ll la' dla lr =>
        simp only [Tree.root, Option.some.injEq] at ela
        subst ela
        have hpar : dla.par = some a := pl
        have := up a rfl g (by omega)
        simpa [predUp, deref_some hl.1, deref_some ha, cellOf, hpar, Tree.root] using this
    · -- `x` is the root of the subtree
      rw [Tree.addrs_reverse_node, nextIn_append_right c _ har']
      simp only [nextIn, if_true, pred, deref_some ha, Res.ok_bind]
      cases l with
      | nil => simpa [cellOf, Tree.root, Tree.addrs, headOr] using up x rfl f (by omega)
      | node ll b db lr =>
        have := predDown_rep c hl (a := b) rfl f (by omega)
        simpa [cellOf, Tree.root] using this
    · -- `x` lies in the right subtree: its predecessor is found there, or is `a`
      have hx' : x ∈ r.addrs.reverse := by simpa using hx
      rw [Tree.addrs_reverse_node, nextIn_append_left c _ hx']
      refine ihr (c := some a) (k := 1) hr ndr pcr ?_ x hx f (by omega)
      intro rb erb g hg
      obtain ⟨g, rfl⟩ : ∃ g', g = g' + 1 := ⟨g - 1, by omega⟩
      cases r with
      | nil => simp [Tree.root] at erb
      | node rl rb' drb rr =>
        simp only [Tree.root, Option.some.injEq] at erb
        subst erb
        have hpar : drb.par = some a := pr
        have hne : some rb' ≠ l.root := fun e =>
          hlr rb' (Tree.root_mem e.symm) (by simp [Tree.addrs])
        simp [predUp, deref_some hr.1, deref_some ha, cellOf, hpar, hne]

theorem pred_rep {h : Mem} {t : Tree} (ht : IsTree h t) (pc : ParOK t) (rp : ParIs none t)
    {pre post : List Nat} {x : Nat} (split : t.addrs = pre ++ x :: post) {f : Nat}
    (hf : t.size < f) : pred h f (some x) = Res.ok pre.getLast? := by
  have rsplit : t.addrs.reverse = post.reverse ++ x :: pre.reverse := by
    rw [split]; simp
  have nd : (post.reverse ++ x :: pre.reverse).Nodup := by
    rw [← rsplit]; exact List.nodup_reverse.2 ht.2
  have hx : x ∈ t.addrs := by rw [split]; simp
  have := pred_sub (c := none) (k := 1) ht.1 ht.2 pc ?_ x hx f (by omega)
  · rw [this, rsplit, nextIn_split none nd, headOr_eq_head?, List.head?_reverse]
  · intro a ea g hg
    obtain ⟨g, rfl⟩ : ∃ g', g = g' + 1 := ⟨g - 1, by omega⟩
    cases t with
    | nil => simp [Tree.root] at ea
    | node l a' d r =>
      simp only [Tree.root, Option.some.injEq] at ea
      subst ea
      have hpar : d.par = none := rp
      simp [predUp, deref_some ht.1.1, cellOf, hpar]

/-! ## Traversal -/

theorem Rep.allocated {h : Mem} {t : Tree} (rep : Rep h t) {z : Nat} (hz : z ∈ t.addrs) :
    ∃ n, h z = some n := by
  induction t with
  | nil => simp [Tree.addrs] at hz
  | node l a d r ihl ihr =>
    simp only [Tree.addrs, List.mem_append, List.mem_cons] at hz
    rcases hz with hz | rfl | hz
    · exact ihl rep.2.1 hz
    · exact ⟨_, rep.1⟩
    · exact ihr rep.2.2 hz

theorem keyAt_rep {h : Mem} {t : Tree} (rep : Rep h t) {z : Nat} (hz : z ∈ t.addrs) :
    keyAt h (some z) = Res.ok (((h z).map Node.key).getD 0) := by
  obtain ⟨n, hn⟩ := rep.allocated hz
  simp [keyAt, deref_some hn, hn]

theorem keysAt_rep {h : Mem} {t : Tree} (rep : Rep h t) :
    ∀ (l : List Nat), (∀ z ∈ l, z ∈ t.addrs) →
      keysAt h l = Res.ok (l.map (fun a => ((h a).map Node.key).getD 0)) := by
  intro l
  induction l with
  | nil => intro _; rfl
  | cons a rest ih =>
    intro hl
    simp [keysAt, keyAt_rep rep (hl a (by simp)), ih (fun z hz => hl z (by simp [hz]))]

theorem keysAt_addrs {h : Mem} {t : Tree} (rep : Rep h t) :
    keysAt h t.addrs = Res.ok t.keys := by
  rw [keysAt_rep rep t.addrs (fun _ hz => hz), rep.keys_eq]

theorem keysAt_addrs_reverse {h : Mem} {t : Tree} (rep : Rep h t) :
    keysAt h t.addrs.reverse = Res.ok t.keys.reverse := by
  rw [keysAt_rep rep t.addrs.reverse (fun _ hz => by simpa using hz), rep.keys_eq,
    List.map_reverse]

theorem mn_rep {h : Mem} {t : Tree} (c : ptr) (rep : Rep h t) :
    ∀ {a : Nat}, t.root = some a → ∀ f, t.size ≤ f →
      mn h f (some a) = Res.ok (headOr c t.addrs) := by
  induction t generalizing c with
  | nil => intro a e; simp [Tree.root] at e
  | node l b d r ihl _ =>
    intro a e f hf
    simp only [Tree.root, Option.some.injEq] at e
    subst e
    obtain ⟨f, rfl⟩ : ∃ g, f = g + 1 := ⟨f - 1, by simp only [Tree.size] at hf; omega⟩
    simp only [mn, deref_some rep.1, Res.ok_bind, Tree.addrs, headOr_append_cons]
    cases l with
    | nil => rfl
    | node ll la dla lr =>
      have := ihl (some b) rep.2.1 (a := la) rfl f (by simp only [Tree.size] at hf ⊢; omega)
      simpa [cellOf, Tree.root] using this

theorem forward_rep {h : Mem} {t : Tree} (ht : IsTree h t) (pc : ParOK t) (rp : ParIs none t)
    {g : Nat} (hg : t.size < g) :
    ∀ (post pre : List Nat) (x : Nat), t.addrs = pre ++ x :: post →
      ∀ f, post.length < f → forward h g f (some x) = Res.ok (x :: post) := by
  intro post
  induction post with
  | nil =>
    intro pre x split f hf
    obtain ⟨f, rfl⟩ : ∃ f', f = f' + 1 := ⟨f - 1, by omega⟩
    simp only [forward, succ_rep ht pc rp split hg, List.head?_nil, Res.ok_bind]
    cases f <;> rfl
  | cons y post ih =>
    intro pre x split f hf
    obtain ⟨f, rfl⟩ : ∃ f', f = f' + 1 := ⟨f - 1, by omega⟩
    have split' : t.addrs = (pre ++ [x]) ++ y :: post := by simp [split]
    simp only [List.length_cons] at hf
    simp only [forward, succ_rep ht pc rp split hg, List.head?_cons, Res.ok_bind,
      ih (pre ++ [x]) y split' f (by omega)]
    rfl

theorem backward_rep {h : Mem} {t : Tree} (ht : IsTree h t) (pc : ParOK t) (rp : ParIs none t)
    {g : Nat} (hg : t.size < g) :
    ∀ (n : Nat) (pre post : List Nat) (x : Nat), pre.length = n → t.addrs = pre ++ x :: post →
      ∀ f, n < f → backward h g f (some x) = Res.ok (x :: pre.reverse) := by
  intro n
  induction n with
  | zero =>
    intro pre post x hn split f hf
    obtain ⟨f, rfl⟩ : ∃ f', f = f' + 1 := ⟨f - 1, by omega⟩
    have : pre = [] := List.length_eq_zero.1 hn
    subst this
    simp only [backward, pred_rep ht pc rp split hg, List.getLast?_nil, Res.ok_bind]
    cases f <;> rfl
  | succ n ih =>
    intro pre post x hn split f hf
    obtain ⟨f, rfl⟩ : ∃ f', f = f' + 1 := ⟨f - 1, by omega⟩
    have hne : pre ≠ [] := by
      intro e; rw [e] at hn; simp at hn
    obtain ⟨pre', y, rfl⟩ : ∃ pre' y, pre = pre' ++ [y] :=
      ⟨pre.dropLast, pre.getLast hne, (List.dropLast_append_getLast hne).symm⟩
    have split' : t.addrs = pre' ++ y :: (x :: post) := by simp [split]
    have hn' : pre'.length = n := by simpa using hn
    have step := ih pre' (x :: post) y hn' split' f (by omega)
    simp only [backward, pred_rep ht pc rp split hg, List.getLast?_append, List.getLast?_singleton,
      Res.ok_bind]
    simp [step]

theorem getLast?_append_cons_of_mem {l1 l2 : List Nat} (a x : Nat) (hx : x ∈ l2) :
    (l1 ++ a :: l2).getLast? = l2.getLast? := by
  cases l2 with
  | nil => simp at hx
  | cons y ys =>
    rw [show l1 ++ a :: y :: ys = (l1 ++ [a]) ++ y :: ys by simp, List.getLast?_append_cons]

/-- Below the last node `succ` never reads the parent link of the root. -/
theorem succ_inner {h : Mem} {s : Tree} (rep : Rep h s) (nd : s.addrs.Nodup) (pc : ParOK s) :
    ∀ x ∈ s.addrs, s.addrs.getLast? ≠ some x → ∀ f, s.size < f →
      succ h f (some x) = Res.ok (nextIn none s.addrs x) := by
  induction s with
  | nil => intro x hx; simp [Tree.addrs] at hx
  | node l a d r _ ihr =>
    intro x hx hlast f hf
    obtain ⟨ha, hl, hr⟩ := rep
    obtain ⟨ndl, ndr, hal, har, hlr⟩ := Tree.nodup_node.1 nd
    obtain ⟨pl, pr, pcl, pcr⟩ := pc
    simp only [Tree.size] at hf
    simp only [Tree.addrs, List.mem_append, List.mem_cons] at hx
    rcases hx with hx | rfl | hx
    · rw [Tree.addrs, nextIn_append_left none _ hx]
      refine succ_sub (c := some a) (k := 1) hl ndl pcl ?_ x hx f (by omega)
      intro la ela g hg
      obtain ⟨g, rfl⟩ : ∃ g', g = g' + 1 := ⟨g - 1, by omega⟩
      cases l with
      | nil => simp [Tree.root] at ela
      | node ll la' dla lr =>
        simp only [Tree.root, Option.some.injEq] at ela
        subst ela
        have hpar : dla.par = some a := pl
        have hne : r.root ≠ some la' := fun e =>
          hlr la' (by simp [Tree.addrs]) (Tree.root_mem e)
        simp [succUp, deref_some hl.1, deref_some ha, cellOf, hpar, hne]
    · rw [Tree.addrs, nextIn_append_right none _ hal]
      simp only [nextIn, if_true, succ, deref_some ha, Res.ok_bind]
      cases r with
      | nil => exact absurd (by simp [Tree.addrs]) hlast
      | node rl b db rr =>
        have := succDown_rep none hr (a := b) rfl f (by omega)
        simpa [cellOf, Tree.root] using this
    · have hxl : x ∉ l.addrs := fun hx' => hlr x hx' hx
      have hxa : a ≠ x := fun e => har (e ▸ hx)
      rw [Tree.addrs, nextIn_append_right none _ hxl]
      simp only [nextIn, if_neg hxa]
      refine ihr hr ndr pcr x hx ?_ f (by omega)
      rw [Tree.addrs, getLast?_append_cons_of_mem a x hx] at hlast
      exact hlast

/-- Above the first node `pred` never reads the parent link of the root. -/
theorem pred_inner {h : Mem} {s : Tree} (rep : Rep h s) (nd : s.addrs.Nodup) (pc : ParOK s) :
    ∀ x ∈ s.addrs, s.addrs.reverse.getLast? ≠ some x → ∀ f, s.size < f →
      pred h f (some x) = Res.ok (nextIn none s.addrs.reverse x) := by
  induction s with
  | nil => intro x hx; simp [Tree.addrs] at hx
  | node l a d r ihl _ =>
    intro x hx hlast f hf
    obtain ⟨ha, hl, hr⟩ := rep
    obtain ⟨ndl, ndr, hal, har, hlr⟩ := Tree.nodup_node.1 nd
    obtain ⟨pl, pr, pcl, pcr⟩ := pc
    simp only [Tree.size] at hf
    simp only [Tree.addrs, List.mem_append, List.mem_cons] at hx
    have har' : a ∉ r.addrs.reverse := by simpa using har
    rcases hx with hx | rfl | hx
    · have hxr : x ∉ r.addrs.reverse := by simpa using hlr x hx
      have hxa : a ≠ x := fun e => hal (e ▸ hx)
      rw [Tree.addrs_reverse_node, nextIn_append_right none _ hxr]
      simp only [nextIn, if_neg hxa]
      refine ihl hl ndl pcl x hx ?_ f (by omega)
      rw [Tree.addrs_reverse_node,
        getLast?_append_cons_of_mem a x (List.mem_reverse.2 hx)] at hlast
      exact hlast
    · rw [Tree.addrs_reverse_node, nextIn_append_right none _ har']
      simp only [nextIn, if_true, pred, deref_some ha, Res.ok_bind]
      cases l with
      | nil => exact absurd (by simp [Tree.addrs]) hlast
      | node ll b db lr =>
        have := predDown_rep none hl (a := b) rfl f (by omega)
        simpa [cellOf, Tree.root] using this
    · have hx' : x ∈ r.addrs.reverse := by simpa using hx
      rw [Tree.addrs_reverse_node, nextIn_append_left none _ hx']
      refine pred_sub (c := some a) (k := 1) hr ndr pcr ?_ x hx f (by omega)
      intro rb erb g hg
      obtain ⟨g, rfl⟩ : ∃ g', g = g' + 1 := ⟨g - 1, by omega⟩
      cases r with
      | nil => simp [Tree.root] at erb
      | node rl rb' drb rr =>
        simp only [Tree.root, Option.some.injEq] at erb
        subst erb
        have hpar : drb.par = some a := pr
        have hne : some rb' ≠ l.root := fun e =>
          hlr rb' (Tree.root_mem e.symm) (by simp [Tree.addrs])
        simp [predUp, deref_some hr.1, deref_some ha, cellOf, hpar, hne]

theorem succ_of_next {h : Mem} {t : Tree} (ht : IsTree h t) (pc : ParOK t)
    {pre post : List Nat} {x y : Nat} (split : t.addrs = pre ++ x :: y :: post) {f : Nat}
    (hf : t.size < f) : succ h f (some x) = Res.ok (some y) := by
  have nd : (pre ++ x :: y :: post).Nodup := split ▸ ht.2
  have hx : x ∈ t.addrs := by rw [split]; simp
  have hlast : t.addrs.getLast? ≠ some x := by
    rw [split, getLast?_append_cons_of_mem x y (List.mem_cons_self _ _)]
    intro e
    have hmem : x ∈ y :: post := List.mem_of_getLast?_eq_some e
    have := (List.nodup_cons.1 (List.nodup_append.1 nd).2.1).1
    exact this hmem
  rw [succ_inner ht.1 ht.2 pc x hx hlast f hf, split, nextIn_split none nd]
  rfl

theorem pred_of_prev {h : Mem} {t : Tree} (ht : IsTree h t) (pc : ParOK t)
    {pre post : List Nat} {x y : Nat} (split : t.addrs = pre ++ y :: x :: post) {f : Nat}
    (hf : t.size < f) : pred h f (some x) = Res.ok (some y) := by
  have rsplit : t.addrs.reverse = post.reverse ++ x :: y :: pre.reverse := by
    rw [split]; simp
  have nd : (post.reverse ++ x :: y :: pre.reverse).Nodup := by
    rw [← rsplit]; exact List.nodup_reverse.2 ht.2
  have hx : x ∈ t.addrs := by rw [split]; simp
  have hlast : t.addrs.reverse.getLast? ≠ some x := by
    rw [rsplit, getLast?_append_cons_of_mem x y (List.mem_cons_self _ _)]
    intro e
    have hmem : x ∈ y :: pre.reverse := List.mem_of_getLast?_eq_some e
    have := (List.nodup_cons.1 (List.nodup_append.1 nd).2.1).1
    exact this hmem
  rw [pred_inner ht.1 ht.2 pc x hx hlast f hf, rsplit, nextIn_split none nd]
  rfl

/-- Both traversal loops on a parent-consistent tree: forward from `mn(root)` yields the
in-order sequence, backward from its last node yields the reverse. -/
theorem traverse_rep {h : Mem} {t : Tree} (ht : IsTree h t) (ne : t.root ≠ none)
    (pc : ParOK t) (rp : ParIs none t) {f : Nat} (hf : t.size < f) :
    ∃ first, mn h f t.root = Res.ok (some first) ∧
      forward h f f (some first) = Res.ok t.addrs ∧
      backward h f f t.addrs.getLast? = Res.ok t.addrs.reverse := by
  obtain ⟨a, ea⟩ : ∃ a, t.root = some a := Option.ne_none_iff_exists'.1 ne
  obtain ⟨first, rest, eaddrs⟩ : ∃ first rest, t.addrs = first :: rest := by
    have := Tree.root_mem ea
    cases hadd : t.addrs with
    | nil => rw [hadd] at this; simp at this
    | cons x xs => exact ⟨x, xs, rfl⟩
  have hlen : t.addrs.length = t.size := Tree.addrs_length t
  have hne : t.addrs ≠ [] := by rw [eaddrs]; simp
  refine ⟨first, ?_, ?_, ?_⟩
  · rw [ea, mn_rep none ht.1 ea f (by omega), eaddrs]; rfl
  · rw [eaddrs]
    refine forward_rep ht pc rp hf rest [] first (by simpa using eaddrs) f ?_
    rw [eaddrs] at hlen
    simp only [List.length_cons] at hlen
    omega
  · have split : t.addrs = t.addrs.dropLast ++ t.addrs.getLast hne :: [] :=
      (List.dropLast_append_getLast hne).symm
    have hl : t.addrs.dropLast.length < f := by
      rw [List.length_dropLast]; omega
    rw [List.getLast?_eq_getLast _ hne,
      backward_rep ht pc rp hf _ t.addrs.dropLast [] _ rfl split f hl]
    congr 1
    conv_rhs => rw [split]
    simp

/-- C7. `succ` computes the in-order successor: if the memory holds a parent-consistent
tree `t` whose root has an absent parent and `x` is a node of `t`, with `pre` the nodes
before it and `post` the nodes after it in in-order, then with enough fuel `succ(x)`
returns the first node of `post`; it returns the absent cursor exactly when `post` is
empty; and under BST order the node returned has the smallest key greater than `x`'s. -/
theorem succ_inorder_successor (h : Mem) (t : Tree) (f : Nat) (pre post : List Nat) (x : Nat)
    (ht : IsTree h t) (pc : ParOK t) (rp : ParIs none t)
    (split : t.addrs = pre ++ x :: post) (hf : t.size < f) :
    succ h f (some x) = Res.ok post.head? ∧
    (succ h f (some x) = Res.ok none ↔ post = []) ∧
    (BSTOrder t → ∀ y, succ h f (some x) = Res.ok (some y) →
      ∃ kx ky, keyAt h (some x) = Res.ok kx ∧ keyAt h (some y) = Res.ok ky ∧ kx < ky ∧
        ∀ z ∈ t.addrs, ∀ kz, keyAt h (some z) = Res.ok kz → kx < kz → ky ≤ kz) := by
  have e := succ_rep ht pc rp split hf
  refine ⟨e, ?_, ?_⟩
  · rw [e]
    cases post <;> simp
  · intro bst y ey
    rw [e] at ey
    obtain ⟨post', rfl⟩ : ∃ post', post = y :: post' := by
      cases post with
      | nil => simp at ey
      | cons y' post' =>
        simp only [List.head?_cons, Res.ok.injEq, Option.some.injEq] at ey
        exact ⟨post', by rw [ey]⟩
    have sorted := (BSTOrder_iff_sorted t).1 bst
    rw [ht.1.keys_eq, split] at sorted
    simp only [List.map_append, List.map_cons, List.pairwise_append, List.pairwise_cons,
      List.mem_map, List.mem_cons, forall_exists_index, and_imp] at sorted
    obtain ⟨_, ⟨hx, hy, _⟩, hpre⟩ := sorted
    have mx : x ∈ t.addrs := by rw [split]; simp
    have my : y ∈ t.addrs := by rw [split]; simp
    refine ⟨_, _, keyAt_rep ht.1 mx, keyAt_rep ht.1 my, hx _ (Or.inl rfl), ?_⟩
    intro z hz kz ekz lt
    rw [keyAt_rep ht.1 hz] at ekz
    simp only [Res.ok.injEq] at ekz
    subst ekz
    rw [split] at hz
    simp only [List.mem_append, List.mem_cons] at hz
    rcases hz with hz | rfl | rfl | hz
    · exact absurd (hpre _ z hz rfl _ (Or.inl rfl)) (not_lt.2 (le_of_lt lt))
    · exact absurd lt (lt_irrefl _)
    · exact le_refl _
    · exact le_of_lt (hy _ z hz rfl)

/-- C7 at the root `2` of `exL`, whose in-order sequence is 1, 2, 3. -/
theorem succ_inorder_successor_witness :
    (IsTree exMem exL ∧ ParOK exL ∧ ParIs none exL ∧ exL.addrs = [1] ++ 2 :: [3]) ∧
    (succ exMem 4 (some 2) = Res.ok [3].head? ∧
    (succ exMem 4 (some 2) = Res.ok none ↔ [3] = []) ∧
    (BSTOrder exL → ∀ y, succ exMem 4 (some 2) = Res.ok (some y) →
      ∃ kx ky, keyAt exMem (some 2) = Res.ok kx ∧ keyAt exMem (some y) = Res.ok ky ∧ kx < ky ∧
        ∀ z ∈ exL.addrs, ∀ kz, keyAt exMem (some z) = Res.ok kz → kx < kz → ky ≤ kz)) :=
  ⟨by decide, succ_inorder_successor exMem exL 4 [1] [3] 2 (by decide) (by decide) (by decide)
    (by decide) (by decide)⟩

/-- C8. `pred` computes the in-order predecessor: if the memory holds a parent-consistent
tree `t` whose root has an absent parent and `x` is a node of `t`, with `pre` the nodes
before it and `post` the nodes after it in in-order, then with enough fuel `pred(x)`
returns the last node of `pre`, and it returns the absent cursor exactly when `pre` is
empty. -/
theorem pred_inorder_predecessor (h : Mem) (t : Tree) (f : Nat) (pre post : List Nat)
    (x : Nat) (ht : IsTree h t) (pc : ParOK t) (rp : ParIs none t)
    (split : t.addrs = pre ++ x :: post) (hf : t.size < f) :
    pred h f (some x) = Res.ok pre.getLast? ∧
    (pred h f (some x) = Res.ok none ↔ pre = []) := by
  have e := pred_rep ht pc rp split hf
  refine ⟨e, ?_⟩
  rw [e]
  simp [List.getLast?_eq_none_iff]

/-- C8 at the root `2` of `exL`, whose in-order sequence is 1, 2, 3. -/
theorem pred_inorder_predecessor_witness :
    (IsTree exMem exL ∧ ParOK exL ∧ ParIs none exL ∧ exL.addrs = [1] ++ 2 :: [3]) ∧
    (pred exMem 4 (some 2) = Res.ok [1].getLast? ∧
    (pred exMem 4 (some 2) = Res.ok none ↔ [1] = [])) :=
  ⟨by decide, pred_inorder_predecessor exMem exL 4 [1] [3] 2 (by decide) (by decide)
    (by decide) (by decide) (by decide)⟩

/-- C9. Forward traversal is finite and has exactly `sz(root)` steps: if the memory holds
a non-empty tree `t` in BST order that is size-consistent and parent-consistent with an
absent root parent, then `mn(root)` returns a node, iterating `succ` from it reaches the
absent cursor after visiting exactly `sz(root)` nodes, namely every node of the tree once,
with strictly increasing keys; and iterating `pred` from the last node visited visits
the same nodes in the opposite order, with strictly decreasing keys. -/
theorem traversal_visits_size_nodes (h : Mem) (t : Tree) (f : Nat)
    (ht : IsTree h t) (ne : t.root ≠ none) (bst : BSTOrder t) (so : SizeOK t) (pc : ParOK t)
    (rp : ParIs none t) (hf : t.size < f) :
    ∃ first visited ks,
      mn h f t.root = Res.ok (some first) ∧ forward h f f (some first) = Res.ok visited ∧
      sz h t.root = Res.ok (visited.length : Int) ∧
      visited.Nodup ∧ (∀ a, a ∈ visited ↔ a ∈ t.addrs) ∧
      keysAt h visited = Res.ok ks ∧ ks.Pairwise (· < ·) ∧
      backward h f f visited.getLast? = Res.ok visited.reverse ∧
      keysAt h visited.reverse = Res.ok ks.reverse ∧ ks.reverse.Pairwise (· > ·) := by
  obtain ⟨first, e1, e2, e3⟩ := traverse_rep ht ne pc rp hf
  have sorted := (BSTOrder_iff_sorted t).1 bst
  refine ⟨first, t.addrs, t.keys, e1, e2, ?_, ht.2, fun _ => Iff.rfl, keysAt_addrs ht.1,
    sorted, e3, keysAt_addrs_reverse ht.1, ?_⟩
  · rw [sz_rep ht.1, so.sz_eq_size, Tree.addrs_length]
  · rw [List.pairwise_reverse]
    exact sorted.imp (fun hab => hab)

/-- C9 at the example treap `exL`. -/
theorem traversal_visits_size_nodes_witness :
    (IsTree exMem exL ∧ exL.root ≠ none ∧ BSTOrder exL ∧ SizeOK exL ∧ ParOK exL ∧
      ParIs none exL) ∧
    ∃ first visited ks,
      mn exMem 4 exL.root = Res.ok (some first) ∧
      forward exMem 4 4 (some first) = Res.ok visited ∧
      sz exMem exL.root = Res.ok (visited.length : Int) ∧
      visited.Nodup ∧ (∀ a, a ∈ visited ↔ a ∈ exL.addrs) ∧
      keysAt exMem visited = Res.ok ks ∧ ks.Pairwise (· < ·) ∧
      backward exMem 4 4 visited.getLast? = Res.ok visited.reverse ∧
      keysAt exMem visited.reverse = Res.ok ks.reverse ∧ ks.reverse.Pairwise (· > ·) :=
  ⟨by decide, traversal_visits_size_nodes exMem exL 4 (by decide) (by decide) (by decide)
    (by decide) (by decide) (by decide) (by decide)⟩

/-! ## The program `main` -/

theorem mainLoop_rep (f : Nat) :
    ∀ (inp : List (Nat × Int × Int)) (h : Mem) (T : Tree),
      IsTree h T → ParOK T → ParIs none T → SizeOK T →
      (∀ x ∈ inp, h x.1 = none) → (inp.map (fun x => x.1)).Nodup →
      T.size + inp.length ≤ f →
      ∃ h' T', mainLoop f inp (h, T.root) = Res.ok (h', T'.root) ∧ IsTree h' T' ∧ ParOK T' ∧
        ParIs none T' ∧ SizeOK T' ∧ T'.items = T.items ++ inp := by
  intro inp
  induction inp with
  | nil =>
    intro h T ht pc rp so _ _ _
    exact ⟨h, T, rfl, ht, pc, rp, so, by simp⟩
  | cons y rest ih =>
    obtain ⟨a, k, p⟩ := y
    intro h T ht pc rp so free nd hf
    simp only [List.map_cons, List.nodup_cons, List.mem_map, not_exists, not_and] at nd
    simp only [List.length_cons] at hf
    have ha : h a = none := free (a, k, p) (by simp)
    have haT : a ∉ T.addrs := by
      intro hx
      obtain ⟨n, hn⟩ := ht.1.allocated hx
      rw [ha] at hn
      exact Option.noConfusion hn
    let R : Tree := .node .nil a { key := k, sz := 1, pri := p, par := none } .nil
    have rep1 : Rep (h.set a (Node.single k p)) T :=
      ht.1.congr (fun x hx => Mem.set_other _ _ (fun (e : x = a) => haT (e ▸ hx)))
    have repR : Rep (h.set a (Node.single k p)) R := ⟨Mem.set_same _ _ _, trivial, trivial⟩
    have nd1 : (T.addrs ++ R.addrs).Nodup := by
      have : R.addrs = [a] := rfl
      rw [this, List.nodup_append]
      refine ⟨ht.2, by simp, ?_⟩
      intro x hx hx'
      simp only [List.mem_singleton] at hx'
      exact haT (hx' ▸ hx)
    have szR : R.size = 1 := rfl
    obtain ⟨h2, e2, rep2, fr2⟩ := merge_rep rep1 repR nd1 (f := f) (by omega)
    have free2 : ∀ x ∈ rest, h2 x.1 = none := by
      intro x hx
      have hxa : x.1 ≠ a := fun e => nd.1 x hx e
      have hxT : x.1 ∉ T.addrs := by
        intro hm
        obtain ⟨n, hn⟩ := ht.1.allocated hm
        rw [free x (by simp [hx])] at hn
        exact Option.noConfusion hn
      rw [fr2 x.1 hxT (by simpa [R, Tree.addrs] using hxa), Mem.set_other _ _ hxa]
      exact free x (by simp [hx])
    have pcR : ParOK R := ⟨trivial, trivial, trivial, trivial⟩
    have soR : SizeOK R := ⟨rfl, trivial, trivial⟩
    have rpR : ParIs none R := rfl
    obtain ⟨pc2, rp2⟩ := mergeT_parOK T R pc pcR
    obtain ⟨so2, _⟩ := mergeT_sizeOK T R so soR
    have ndm : (mergeT T R).addrs.Nodup := by rw [mergeT_addrs]; exact nd1
    obtain ⟨h', T', e', ht', pc', rp', so', items'⟩ :=
      ih h2 (mergeT T R) ⟨rep2, ndm⟩ pc2 (rp2 none rp rpR) so2 free2
        (by simpa using nd.2) (by rw [mergeT_size]; omega)
    refine ⟨h', T', ?_, ht', pc', rp', so', ?_⟩
    · have e2' : merge (h.set a (Node.single k p)) f T.root (some a) =
          Res.ok (h2, (mergeT T R).root) := e2
      simp only [mainLoop, e2', Res.ok_bind]
      exact e'
    · rw [items', mergeT_items]
      simp [R, Tree.items]

/-- C6. End-to-end traversal order: for every non-empty list of nodes to insert (fresh
addresses chosen by the allocator, strictly increasing keys, arbitrary priorities), with
enough fuel the loop `treap = merge(treap, new Node(k_i))` started from the empty tree
returns a tree of size `n` in BST order; iterating `succ` from `mn(treap)` until the
absent cursor visits exactly the keys `k_1, ..., k_n` in that order, and iterating `pred`
from the last node visited visits `k_n, ..., k_1`. -/
theorem main_traversal_order (inp : List (Nat × Int × Int)) (f : Nat)
    (ne : inp ≠ []) (fresh : (inp.map (fun x => x.1)).Nodup)
    (inc : (inp.map (fun x => x.2.1)).Pairwise (· < ·)) (hf : inp.length < f) :
    ∃ h T first visited back,
      mainLoop f inp (Mem.empty, none) = Res.ok (h, T.root) ∧ IsTree h T ∧ BSTOrder T ∧
      sz h T.root = Res.ok (inp.length : Int) ∧
      mn h f T.root = Res.ok (some first) ∧ forward h f f (some first) = Res.ok visited ∧
      keysAt h visited = Res.ok (inp.map (fun x => x.2.1)) ∧
      backward h f f visited.getLast? = Res.ok back ∧
      keysAt h back = Res.ok (inp.map (fun x => x.2.1)).reverse := by
  obtain ⟨h, T, e, ht, pc, rp, so, items⟩ :=
    mainLoop_rep f inp Mem.empty .nil ⟨trivial, List.nodup_nil⟩ trivial trivial trivial
      (fun _ _ => rfl) fresh (by simp only [Tree.size]; omega)
  simp only [Tree.items, List.nil_append] at items
  have hkeys : T.keys = inp.map (fun x => x.2.1) := by rw [Tree.keys_eq_items, items]
  have hsize : T.size = inp.length := by
    rw [← Tree.keys_length, hkeys, List.length_map]
  have bst : BSTOrder T := by rw [BSTOrder_iff_sorted, hkeys]; exact inc
  have hroot : T.root ≠ none := by
    cases T with
    | nil => exact absurd items.symm ne
    | node l a d r => simp [Tree.root]
  obtain ⟨first, e1, e2, e3⟩ := traverse_rep ht hroot pc rp (f := f) (by omega)
  refine ⟨h, T, first, T.addrs, T.addrs.reverse, e, ht, bst, ?_, e1, e2, ?_, e3, ?_⟩
  · rw [sz_rep ht.1, so.sz_eq_size, hsize]
  · rw [keysAt_addrs ht.1, hkeys]
  · rw [keysAt_addrs_reverse ht.1, hkeys]

/-- C6 at the keys 10, 20, ..., 100 built by `main`, for one draw of priorities. -/
theorem main_traversal_order_witness :
    (mainInput ≠ [] ∧ (mainInput.map (fun x => x.1)).Nodup ∧
      (mainInput.map (fun x => x.2.1)).Pairwise (· < ·) ∧
      mainInput.map (fun x => x.2.1) = [10, 20, 30, 40, 50, 60, 70, 80, 90, 100]) ∧
    ∃ h T first visited back,
      mainLoop 11 mainInput (Mem.empty, none) = Res.ok (h, T.root) ∧ IsTree h T ∧
      BSTOrder T ∧ sz h T.root = Res.ok (mainInput.length : Int) ∧
      mn h 11 T.root = Res.ok (some first) ∧ forward h 11 11 (some first) = Res.ok visited ∧
      keysAt h visited = Res.ok (mainInput.map (fun x => x.2.1)) ∧
      backward h 11 11 visited.getLast? = Res.ok back ∧
      keysAt h back = Res.ok (mainInput.map (fun x => x.2.1)).reverse :=
  ⟨by decide, main_traversal_order mainInput 11 (by decide) (by decide) (by decide)
    (by decide)⟩

/-- The cursor moves at the end of `main`, for any three or more inserted nodes and any
priorities: `begin` is the first node inserted, two advances reach the third, one retreat
from there reaches the second. -/
theorem main_cursor_scenario (i1 i2 i3 : Nat × Int × Int) (rest : List (Nat × Int × Int))
    (f : Nat) (fresh : ((i1 :: i2 :: i3 :: rest).map (fun x => x.1)).Nodup)
    (hf : (i1 :: i2 :: i3 :: rest).length < f) :
    ∃ h t, mainLoop f (i1 :: i2 :: i3 :: rest) (Mem.empty, none) = Res.ok (h, t) ∧
      mn h f t = Res.ok (some i1.1) ∧ succ h f (some i1.1) = Res.ok (some i2.1) ∧
      succ h f (some i2.1) = Res.ok (some i3.1) ∧ keyAt h (some i3.1) = Res.ok i3.2.1 ∧
      pred h f (some i3.1) = Res.ok (some i2.1) ∧ keyAt h (some i2.1) = Res.ok i2.2.1 := by
  obtain ⟨h, T, e, ht, pc, rp, so, items⟩ :=
    mainLoop_rep f (i1 :: i2 :: i3 :: rest) Mem.empty .nil ⟨trivial, List.nodup_nil⟩ trivial
      trivial trivial (fun _ _ => rfl) fresh (by simp only [Tree.size]; omega)
  simp only [Tree.items, List.nil_append] at items
  have haddrs : T.addrs = i1.1 :: i2.1 :: i3.1 :: rest.map (fun x => x.1) := by
    rw [Tree.addrs_eq_items, items]; rfl
  have hkeys : T.keys = i1.2.1 :: i2.2.1 :: i3.2.1 :: rest.map (fun x => x.2.1) := by
    rw [Tree.keys_eq_items, items]; rfl
  have hsize : T.size = (i1 :: i2 :: i3 :: rest).length := by
    rw [← Tree.keys_length, hkeys]; simp
  have hlt : T.size < f := by omega
  have hroot : T.root ≠ none := by
    cases T with
    | nil => simp [Tree.addrs] at haddrs
    | node l a d r => simp [Tree.root]
  obtain ⟨a, ea⟩ : ∃ a, T.root = some a := Option.ne_none_iff_exists'.1 hroot
  have s1 : T.addrs = [] ++ i1.1 :: (i2.1 :: i3.1 :: rest.map (fun x => x.1)) := haddrs
  have s2 : T.addrs = [i1.1] ++ i2.1 :: (i3.1 :: rest.map (fun x => x.1)) := haddrs
  have s3 : T.addrs = [i1.1, i2.1] ++ i3.1 :: rest.map (fun x => x.1) := haddrs
  have ks := keysAt_addrs ht.1
  rw [haddrs, hkeys] at ks
  have k2 : keyAt h (some i2.1) = Res.ok i2.2.1 := by
    rw [keyAt_rep ht.1 (by rw [haddrs]; simp)]
    rw [keysAt_rep ht.1 _ (by rw [haddrs]; exact fun _ hz => hz)] at ks
    simp only [List.map_cons, Res.ok.injEq, List.cons.injEq] at ks
    rw [ks.2.1]
  have k3 : keyAt h (some i3.1) = Res.ok i3.2.1 := by
    rw [keyAt_rep ht.1 (by rw [haddrs]; simp)]
    rw [keysAt_rep ht.1 _ (by rw [haddrs]; exact fun _ hz => hz)] at ks
    simp only [List.map_cons, Res.ok.injEq, List.cons.injEq] at ks
    rw [ks.2.2.1]
  refine ⟨h, T.root, e, ?_, ?_, ?_, k3, ?_, k2⟩
  · rw [ea, mn_rep none ht.1 ea f (by omega), haddrs]; rfl
  · rw [succ_rep ht pc rp s1 hlt]; rfl
  · rw [succ_rep ht pc rp s2 hlt]; rfl
  · rw [pred_rep ht pc rp s3 hlt]; rfl

/-- C10 as stated fails: in the parent-consistent tree `exL` (in-order 1, 2, 3) the node
`3` is not the first element, `succ(3)` is the absent cursor, and `pred` of the absent
cursor is undefined behaviour, so `pred(succ(3))` is never `3`, whatever the fuel. -/
theorem succ_pred_roundtrip_counterexample :
    IsTree exMem exL ∧ ParOK exL ∧ ParIs none exL ∧ exL.addrs = [1, 2] ++ 3 :: [] ∧
    ([1, 2] : List Nat) ≠ [] ∧ succ exMem 4 (some 3) = Res.ok none ∧
    pred exMem 4 none = Res.ub ∧
    ¬ ∃ f g, (succ exMem f (some 3) >>= pred exMem g) = Res.ok (some 3) := by
  refine ⟨by decide, by decide, by decide, by decide, by decide, by decide, by decide, ?_⟩
  rintro ⟨f, g, e⟩
  rcases f with _ | _ | f
  · have : succ exMem 0 (some 3) = Res.outOfFuel := by decide
    rw [this] at e
    exact absurd e (by simp)
  · have : succ exMem 1 (some 3) = Res.outOfFuel := by decide
    rw [this] at e
    exact absurd e (by simp)
  · have : succ exMem (f + 2) (some 3) = Res.ok none := by
      simp [succ, succUp, deref, exMem]
    rw [this] at e
    exact absurd e (by simp [pred])

/-- C10 (amended). Round trip of successor and predecessor: if the memory holds a
parent-consistent tree `t` (nothing is assumed about the parent link of its root) and `x`
is a node of `t`, with `pre` the nodes before it and `post` the nodes after it in
in-order, then with enough fuel `pred(succ(x)) = x` whenever `x` is not the last element,
and `succ(pred(x)) = x` whenever `x` is not the first element. -/
theorem succ_pred_roundtrip (h : Mem) (t : Tree) (f : Nat) (pre post : List Nat) (x : Nat)
    (ht : IsTree h t) (pc : ParOK t) (split : t.addrs = pre ++ x :: post) (hf : t.size < f) :
    (post ≠ [] → (succ h f (some x) >>= pred h f) = Res.ok (some x)) ∧
    (pre ≠ [] → (pred h f (some x) >>= succ h f) = Res.ok (some x)) := by
  constructor
  · intro hne
    obtain ⟨y, post', rfl⟩ : ∃ y post', post = y :: post' := by
      cases post with
      | nil => exact absurd rfl hne
      | cons y post' => exact ⟨y, post', rfl⟩
    rw [succ_of_next ht pc split hf]
    exact pred_of_prev ht pc split hf
  · intro hne
    obtain ⟨pre', y, rfl⟩ : ∃ pre' y, pre = pre' ++ [y] :=
      ⟨pre.dropLast, pre.getLast hne, (List.dropLast_append_getLast hne).symm⟩
    have split' : t.addrs = pre' ++ y :: x :: post := by simp [split]
    rw [pred_of_prev ht pc split' hf]
    exact succ_of_next ht pc split' hf

/-- C10 (amended) at the root `2` of `exL`, and the scenario of `main`: in the tree of keys
10, ..., 100 advancing twice from the leftmost node lands on key 30 and retreating once
from there lands on key 20. -/
theorem succ_pred_roundtrip_witness :
    (IsTree exMem exL ∧ ParOK exL ∧ exL.addrs = [1] ++ 2 :: [3]) ∧
    ((([3] : List Nat) ≠ [] → (succ exMem 4 (some 2) >>= pred exMem 4) = Res.ok (some 2)) ∧
     (([1] : List Nat) ≠ [] → (pred exMem 4 (some 2) >>= succ exMem 4) = Res.ok (some 2))) ∧
    (∃ h t, mainLoop 11 mainInput (Mem.empty, none) = Res.ok (h, t) ∧
      mn h 11 t = Res.ok (some 100) ∧ succ h 11 (some 100) = Res.ok (some 101) ∧
      succ h 11 (some 101) = Res.ok (some 102) ∧ keyAt h (some 102) = Res.ok 30 ∧
      pred h 11 (some 102) = Res.ok (some 101) ∧ keyAt h (some 101) = Res.ok 20) :=
  ⟨by decide, succ_pred_roundtrip exMem exL 4 [1] [3] 2 (by decide) (by decide) (by decide)
    (by decide),
   main_cursor_scenario (100, 10, 5) (101, 20, 3) (102, 30, 8) _ 11 (by decide) (by decide)⟩

/-! ## The absent cursor -/

/-- C11 (the code at the failing input). `mn` applied to the absent tree reads `n->l`
through `nullptr`: with any positive fuel the outcome is undefined behaviour, and with no
fuel at all it is not the absent cursor either; the same holds for `begin`. -/
theorem mn_empty_undefined (h : Mem) (f : Nat) :
    mn h (f + 1) none = Res.ub ∧ ptrBegin h (f + 1) none = Res.ub ∧
    mn h f none ≠ Res.ok none ∧ ptrBegin h f none ≠ Res.ok none := by
  have e : mn h (f + 1) none = Res.ub := rfl
  refine ⟨e, e, ?_, ?_⟩
  · cases f with
    | zero => simp [mn]
    | succ g => simp [mn, deref]
  · cases f with
    | zero => simp [ptrBegin, mn]
    | succ g => simp [ptrBegin, mn, deref]

/-- C12 as stated fails: in `exL` (in-order 1, 2, 3) advancing from the last node `3`
yields the absent cursor, and dereferencing that cursor or applying `succ` or `pred` to
it is undefined behaviour, not a failure signalled by the program. -/
theorem absent_cursor_counterexample :
    IsTree exMem exL ∧ ParOK exL ∧ ParIs none exL ∧ exL.addrs = [1, 2] ++ [3] ∧
    succ exMem 4 (some 3) = Res.ok none ∧
    (deref exMem none).failsLoudly = false ∧ (keyAt exMem none).failsLoudly = false ∧
    (succ exMem 4 none).failsLoudly = false ∧ (pred exMem 4 none).failsLoudly = false := by
  decide

/-- C12 (amended). If the memory holds a parent-consistent tree `t` whose root has an
absent parent and `x` is its last node in in-order, then with enough fuel `succ(x)`
returns the absent cursor, which is what `end` returns; and for every memory and fuel,
dereferencing the absent cursor, reading a key through it, and applying `succ` or `pred`
to it are undefined behaviour: no node and no key is returned, and no error is signalled. -/
theorem absent_cursor_undefined (h : Mem) (t : Tree) (f : Nat) (pre : List Nat) (x : Nat)
    (ht : IsTree h t) (pc : ParOK t) (rp : ParIs none t) (split : t.addrs = pre ++ [x])
    (hf : t.size < f) :
    succ h f (some x) = Res.ok (ptrEnd t.root) ∧ ptrEnd t.root = none ∧
    ∀ (h' : Mem) (g : Nat), deref h' none = Res.ub ∧ keyAt h' none = Res.ub ∧
      succ h' g none = Res.ub ∧ pred h' g none = Res.ub := by
  refine ⟨?_, rfl, fun h' g => ⟨rfl, rfl, rfl, rfl⟩⟩
  have split' : t.addrs = pre ++ x :: [] := split
  have := succ_rep ht pc rp split' hf
  simpa [ptrEnd] using this

/-- C12 (amended) at the last node `3` of `exL`. -/
theorem absent_cursor_undefined_witness :
    (IsTree exMem exL ∧ ParOK exL ∧ ParIs none exL ∧ exL.addrs = [1, 2] ++ [3]) ∧
    (succ exMem 4 (some 3) = Res.ok (ptrEnd exL.root) ∧ ptrEnd exL.root = none ∧
    ∀ (h' : Mem) (g : Nat), deref h' none = Res.ub ∧ keyAt h' none = Res.ub ∧
      succ h' g none = Res.ub ∧ pred h' g none = Res.ub) :=
  ⟨by decide, absent_cursor_undefined exMem exL 4 [1, 2] 3 (by decide) (by decide) (by decide)
    (by decide) (by decide)⟩

/-! ## The contract of `pull` -/

theorem setParent_raw {h : Mem} {a : Nat} {p : ptr}
    (hp : ∀ c, p = some c → ∃ cn, h c = some cn) :
    ∃ h', setParent h a p = Res.ok h' ∧
      (∀ x, some x ≠ p → h' x = h x) ∧
      (∀ c, p = some c → ∃ cn, h c = some cn ∧ h' c = some { cn with par := some a }) := by
  cases p with
  | none => exact ⟨h, rfl, fun _ _ => rfl, fun c e => by simp at e⟩
  | some c =>
    obtain ⟨cn, hc⟩ := hp c rfl
    refine ⟨h.set c { cn with par := some a }, by simp [setParent, deref_some hc], ?_, ?_⟩
    · intro x hx
      exact Mem.set_other _ _ (fun e => hx (by rw [e]))
    · intro c' e
      simp only [Option.some.injEq] at e
      subst e
      exact ⟨cn, hc, Mem.set_same _ _ _⟩

theorem sz_raw {h : Mem} {p : ptr} (hp : ∀ c, p = some c → ∃ cn, h c = some cn) :
    ∃ s, sz h p = Res.ok s ∧ ∀ c cn, p = some c → h c = some cn → s = cn.sz := by
  cases p with
  | none => exact ⟨0, rfl, fun c cn e => by simp at e⟩
  | some c =>
    obtain ⟨cn, hc⟩ := hp c rfl
    refine ⟨cn.sz, by simp [sz, deref_some hc], ?_⟩
    intro c' cn' e hc'
    simp only [Option.some.injEq] at e
    subst e
    rw [hc] at hc'
    simp only [Option.some.injEq] at hc'
    rw [hc']

theorem pull_raw {h : Mem} {a : Nat} {n : Node} (ha : h a = some n)
    (hl : ∀ c, n.l = some c → c ≠ a ∧ ∃ cn, h c = some cn)
    (hr : ∀ c, n.r = some c → c ≠ a ∧ ∃ cn, h c = some cn) :
    ∃ h' sl sr, pull h (some a) = Res.ok (h', some a) ∧
      sz h n.l = Res.ok sl ∧ sz h n.r = Res.ok sr ∧
      h' a = some { n with sz := sl + 1 + sr } ∧
      (∀ x, x ≠ a → some x ≠ n.l → some x ≠ n.r → h' x = h x) ∧
      (∀ c, n.l = some c ∨ n.r = some c →
        ∃ cn, h c = some cn ∧ h' c = some { cn with par := some a }) := by
  obtain ⟨h1, e1, fr1, ch1⟩ := setParent_raw (h := h) (a := a) (p := n.l)
    (fun c e => (hl c e).2)
  have ha1 : h1 a = some n := by
    rw [fr1 a (fun e => (hl a e.symm).1 rfl), ha]
  have alloc1 : ∀ c, n.r = some c → ∃ cn, h1 c = some cn := by
    intro c e
    by_cases hc : some c = n.l
    · obtain ⟨cn, _, hcn⟩ := ch1 c hc.symm
      exact ⟨_, hcn⟩
    · obtain ⟨cn, hcn⟩ := (hr c e).2
      exact ⟨cn, by rw [fr1 c hc, hcn]⟩
  obtain ⟨h2, e2, fr2, ch2⟩ := setParent_raw (h := h1) (a := a) (p := n.r) alloc1
  have ha2 : h2 a = some n := by
    rw [fr2 a (fun e => (hr a e.symm).1 rfl), ha1]
  -- the children after both writes
  have child : ∀ c, n.l = some c ∨ n.r = some c →
      ∃ cn, h c = some cn ∧ h2 c = some { cn with par := some a } := by
    intro c hc
    by_cases hcr : n.r = some c
    · obtain ⟨cn1, hcn1, hcn2⟩ := ch2 c hcr
      by_cases hcl : n.l = some c
      · obtain ⟨cn, hcn, hcn'⟩ := ch1 c hcl
        rw [hcn'] at hcn1
        simp only [Option.some.injEq] at hcn1
        subst hcn1
        exact ⟨cn, hcn, hcn2⟩
      · rw [fr1 c (fun e => hcl e.symm)] at hcn1
        exact ⟨cn1, hcn1, hcn2⟩
    · have hcl : n.l = some c := hc.resolve_right hcr
      obtain ⟨cn, hcn, hcn'⟩ := ch1 c hcl
      exact ⟨cn, hcn, by rw [fr2 c (fun e => hcr e.symm), hcn']⟩
  obtain ⟨sl, esl, hsl⟩ := sz_raw (h := h) (p := n.l) (fun c e => (hl c e).2)
  obtain ⟨sr, esr, hsr⟩ := sz_raw (h := h) (p := n.r) (fun c e => (hr c e).2)
  have esl2 : sz h2 n.l = Res.ok sl := by
    cases hnl : n.l with
    | none => rw [hnl] at esl; exact esl
    | some c =>
      obtain ⟨cn, hcn, hcn2⟩ := child c (Or.inl hnl)
      simp [sz, deref_some hcn2, hsl c cn hnl hcn]
  have esr2 : sz h2 n.r = Res.ok sr := by
    cases hnr : n.r with
    | none => rw [hnr] at esr; exact esr
    | some c =>
      obtain ⟨cn, hcn, hcn2⟩ := child c (Or.inr hnr)
      simp [sz, deref_some hcn2, hsr c cn hnr hcn]
  refine ⟨h2.set a { n with sz := sl + 1 + sr }, sl, sr, ?_, esl, esr, Mem.set_same _ _ _,
    ?_, ?_⟩
  · simp only [pull, deref_some ha, Res.ok_bind, e1, deref_some ha1, e2, deref_some ha2, esl2,
      esr2, Res.pure_eq_ok]
  · intro x xa xl xr
    rw [Mem.set_other _ _ xa, fr2 x xr, fr1 x xl]
  · intro c hc
    obtain ⟨cn, hcn, hcn2⟩ := child c hc
    have hca : c ≠ a := by
      rcases hc with e | e
      · exact (hl c e).1
      · exact (hr c e).1
    exact ⟨cn, hcn, by rw [Mem.set_other _ _ hca, hcn2]⟩

theorem sz_of_cached {h : Mem} {p : ptr} {s : Int}
    (hp : ∀ c, p = some c → ∃ cn, h c = some cn ∧ cn.sz = s) (h0 : p = none → s = 0) :
    sz h p = Res.ok s := by
  cases p with
  | none => rw [h0 rfl]; rfl
  | some c =>
    obtain ⟨cn, hcn, hs⟩ := hp c rfl
    simp [sz, deref_some hcn, hs]

/-- Where the range hypothesis of the contract of `pull` ends: a left child with cached
size `2147483646` is admitted, one with cached size `2147483647` (where the source's
`sz(n->l) + 1` overflows) is not. -/
theorem noOverflow_boundary : NoOverflow 2147483646 0 ∧ ¬ NoOverflow 2147483647 0 := by
  decide

/-- C13. The contract of `pull`: `pull(nullptr)` returns `nullptr` and leaves the memory
untouched.  For a node `n` at address `a` whose present children are allocated cells other
than `n` itself, with `sl` and `sr` the cached `sz` fields of its left and right child
(`0` for an absent child) such that `sz(n->l) + 1 + sz(n->r)` does not overflow `int`:
`pull(n)` returns `n`; afterwards each present child `c` of `n` has `c.par = n` (its other
fields unchanged, so `sz` still returns `sl` and `sr` on the children),
`n.sz = 1 + sl + sr`, a value of `int`, and `n`'s key, priority, left and right links and
own parent reference are unchanged. -/
theorem pull_contract (h : Mem) (a : Nat) (n : Node) (sl sr : Int) (ha : h a = some n)
    (hl : ∀ c, n.l = some c → c ≠ a ∧ ∃ cn, h c = some cn ∧ cn.sz = sl)
    (hl0 : n.l = none → sl = 0)
    (hr : ∀ c, n.r = some c → c ≠ a ∧ ∃ cn, h c = some cn ∧ cn.sz = sr)
    (hr0 : n.r = none → sr = 0)
    (range : NoOverflow sl sr) :
    pull h none = Res.ok (h, none) ∧
    ∃ h' n', pull h (some a) = Res.ok (h', some a) ∧ h' a = some n' ∧
      (∀ c, n.l = some c ∨ n.r = some c →
        ∃ cn, h c = some cn ∧ h' c = some { cn with par := some a }) ∧
      n'.sz = 1 + sl + sr ∧ IntRange n'.sz ∧
      sz h n.l = Res.ok sl ∧ sz h n.r = Res.ok sr ∧
      sz h' n.l = Res.ok sl ∧ sz h' n.r = Res.ok sr ∧
      n'.key = n.key ∧ n'.pri = n.pri ∧ n'.l = n.l ∧ n'.r = n.r ∧ n'.par = n.par := by
  refine ⟨rfl, ?_⟩
  have esl : sz h n.l = Res.ok sl := sz_of_cached (fun c e => (hl c e).2) hl0
  have esr : sz h n.r = Res.ok sr := sz_of_cached (fun c e => (hr c e).2) hr0
  obtain ⟨h', sl', sr', e, esl', esr', ha', _, child⟩ :=
    pull_raw ha (fun c e => ⟨(hl c e).1, (hl c e).2.imp (fun _ hc => hc.1)⟩)
      (fun c e => ⟨(hr c e).1, (hr c e).2.imp (fun _ hc => hc.1)⟩)
  have el : sl' = sl := by
    rw [esl] at esl'
    simp only [Res.ok.injEq] at esl'
    exact esl'.symm
  have er : sr' = sr := by
    rw [esr] at esr'
    simp only [Res.ok.injEq] at esr'
    exact esr'.symm
  subst el er
  have szafter : ∀ (p : ptr) (s : Int), (p = n.l ∨ p = n.r) → sz h p = Res.ok s →
      sz h' p = Res.ok s := by
    intro p s hp es
    cases p with
    | none => exact es
    | some c =>
      obtain ⟨cn, hcn, hcn'⟩ := child c (hp.imp Eq.symm Eq.symm)
      simp only [sz, deref_some hcn, Res.ok_bind, Res.pure_eq_ok] at es
      simp only [sz, deref_some hcn', Res.ok_bind, Res.pure_eq_ok]
      exact es
  have hsz : ({ n with sz := sl' + 1 + sr' } : Node).sz = 1 + sl' + sr' := by
    simp only []; ring
  refine ⟨h', _, e, ha', child, hsz, ?_, esl, esr, szafter _ _ (Or.inl rfl) esl,
    szafter _ _ (Or.inr rfl) esr, rfl, rfl, rfl, rfl, rfl⟩
  rw [hsz, show 1 + sl' + sr' = sl' + 1 + sr' by ring]
  exact range.2.2.2

/-- C13 at the node `2` of `exStale`, whose children `1` and `3` have cached sizes 4 and 2
and stale parent links: `pull` stores the size 7 and points both children to `2`. -/
theorem pull_contract_witness :
    (exStale 2 =
        some { key := 20, sz := 1, pri := 9, l := some 1, r := some 3, par := some 9 } ∧
      exStale 1 = some { key := 10, sz := 4, pri := 4, l := none, r := none, par := none } ∧
      exStale 3 =
        some { key := 30, sz := 2, pri := 5, l := none, r := none, par := some 1 } ∧
      NoOverflow 4 2) ∧
    (pull exStale none = Res.ok (exStale, none) ∧
    ∃ h' n', pull exStale (some 2) = Res.ok (h', some 2) ∧ h' 2 = some n' ∧
      (∀ c, (some 1 : ptr) = some c ∨ (some 3 : ptr) = some c →
        ∃ cn, exStale c = some cn ∧ h' c = some { cn with par := some 2 }) ∧
      n'.sz = 1 + 4 + 2 ∧ IntRange n'.sz ∧
      sz exStale (some 1) = Res.ok 4 ∧ sz exStale (some 3) = Res.ok 2 ∧
      sz h' (some 1) = Res.ok 4 ∧ sz h' (some 3) = Res.ok 2 ∧
      n'.key = 20 ∧ n'.pri = 9 ∧ n'.l = some 1 ∧ n'.r = some 3 ∧ n'.par = some 9) :=
  ⟨by decide, pull_contract exStale 2
    { key := 20, sz := 1, pri := 9, l := some 1, r := some 3, par := some 9 } 4 2 rfl
    (fun c e => by
      simp only [Option.some.injEq] at e
      subst e
      exact ⟨by decide, _, rfl, rfl⟩)
    (fun e => by simp at e)
    (fun c e => by
      simp only [Option.some.injEq] at e
      subst e
      exact ⟨by decide, _, rfl, rfl⟩)
    (fun e => by simp at e)
    (by decide)⟩

/-! ## Merge: root selection, the precondition, the in-order sequence -/

/-- C15. A violated precondition silently breaks BST order: if the memory holds two
separate non-empty treaps `L` and `R`, both size-consistent and parent-consistent with an
absent root parent, and some key of `L` is not strictly less than some key of `R`, then
with enough fuel `merge(L, R)` returns (no fault) the root of a tree that is still
size-consistent and parent-consistent with an absent root parent, is heap-ordered when
`L` and `R` are, and is not in BST order. -/
theorem merge_violated_precondition (h : Mem) (L R : Tree) (f : Nat)
    (hLR : IsTrees h L R) (neL : L.root ≠ none) (neR : R.root ≠ none)
    (viol : ∃ x ∈ L.keys, ∃ y ∈ R.keys, ¬ x < y)
    (sL : SizeOK L) (sR : SizeOK R) (pL : ParOK L) (pR : ParOK R) (rL : ParIs none L)
    (rR : ParIs none R) (hf : L.size + R.size ≤ f) :
    ∃ h' T, merge h f L.root R.root = Res.ok (h', T.root) ∧ IsTree h' T ∧ T.root ≠ none ∧
      (HeapOrder L → HeapOrder R → HeapOrder T) ∧ SizeOK T ∧ ParOK T ∧ ParIs none T ∧
      ¬ BSTOrder T := by
  obtain ⟨hL, hR, nd⟩ := hLR
  obtain ⟨h', e, rep, _⟩ := merge_rep hL hR nd hf
  obtain ⟨pc, rt⟩ := mergeT_parOK L R pL pR
  refine ⟨h', mergeT L R, e, ⟨rep, by rw [mergeT_addrs]; exact nd⟩, ?_,
    fun oL oR => (mergeT_heap L R oL oR).1, (mergeT_sizeOK L R sL sR).1, pc, rt none rL rR, ?_⟩
  · cases L with
    | nil => exact absurd rfl neL
    | node ll a dl lr =>
      cases R with
      | nil => exact absurd rfl neR
      | node rl b dr rr =>
        rw [mergeT_node]
        split <;> simp [Tree.root, pullT]
  · intro bst
    rw [BSTOrder_iff_sorted, mergeT_keys, List.pairwise_append] at bst
    obtain ⟨x, hx, y, hy, hxy⟩ := viol
    exact hxy (bst.2.2 x hx y hy)

/-- C15 at the example memory with the arguments exchanged: the keys 40, 50 of `exR`
are not below the keys 10, 20, 30 of `exL`. -/
theorem merge_violated_precondition_witness :
    (IsTrees exMem exR exL ∧ (∃ x ∈ exR.keys, ∃ y ∈ exL.keys, ¬ x < y)) ∧
    ∃ h' T, merge exMem 5 exR.root exL.root = Res.ok (h', T.root) ∧ IsTree h' T ∧
      T.root ≠ none ∧ (HeapOrder exR → HeapOrder exL → HeapOrder T) ∧ SizeOK T ∧ ParOK T ∧
      ParIs none T ∧ ¬ BSTOrder T :=
  ⟨by decide, merge_violated_precondition exMem exR exL 5 (by decide) (by decide) (by decide)
    (by decide) (by decide) (by decide) (by decide) (by decide) (by decide) (by decide)
    (by decide)⟩

@[simp] theorem Tree.setPar_setPar (p q : ptr) (t : Tree) :
    (t.setPar p).setPar q = t.setPar q := by
  cases t <;> rfl

theorem mergeT_node_gt {ll lr rl rr : Tree} {a b : Nat} {dl dr : Info} (hp : dl.pri > dr.pri) :
    mergeT (.node ll a dl lr) (.node rl b dr rr) =
      .node (ll.setPar (some a)) a
        { dl with sz := ll.sz + 1 + (mergeT lr (.node rl b dr rr)).sz }
        ((mergeT lr (.node rl b dr rr)).setPar (some a)) := by
  rw [mergeT_node, if_pos hp]; rfl

theorem mergeT_node_le {ll lr rl rr : Tree} {a b : Nat} {dl dr : Info}
    (hp : ¬ dl.pri > dr.pri) :
    mergeT (.node ll a dl lr) (.node rl b dr rr) =
      .node ((mergeT (.node ll a dl lr) rl).setPar (some b)) b
        { dr with sz := (mergeT (.node ll a dl lr) rl).sz + 1 + rr.sz }
        (rr.setPar (some b)) := by
  rw [mergeT_node, if_neg hp]; rfl

/-- The parent link stored in the root of the left argument does not influence `merge`,
except as the parent link of the root of the result. -/
theorem mergeT_setPar_left (M C : Tree) :
    ∀ p q : ptr, (mergeT (M.setPar p) C).setPar q = (mergeT M C).setPar q := by
  induction M, C using mergeT.induct with
  | case1 r => intro p q; rfl
  | case2 ll a dl lr => intro p q; simp [Tree.setPar]
  | case3 ll a dl lr rl b dr rr hp _ =>
    intro p q
    have hp' : ({ dl with par := p } : Info).pri > dr.pri := hp
    rw [Tree.setPar, mergeT_node_gt hp, mergeT_node_gt hp']
    rfl
  | case4 ll a dl lr rl b dr rr hp ih =>
    intro p q
    have e := ih p (some b)
    have esz := congrArg Tree.sz e
    simp only [Tree.setPar_sz] at esz
    have hp' : ¬ ({ dl with par := p } : Info).pri > dr.pri := hp
    have e' : (mergeT (.node ll a { dl with par := p } lr) rl).setPar (some b) =
        (mergeT (.node ll a dl lr) rl).setPar (some b) := e
    have esz' : (mergeT (.node ll a { dl with par := p } lr) rl).sz =
        (mergeT (.node ll a dl lr) rl).sz := esz
    rw [Tree.setPar, mergeT_node_le hp, mergeT_node_le hp', e', esz']

/-- The parent link stored in the root of the right argument does not influence `merge`,
except as the parent link of the root of the result. -/
theorem mergeT_setPar_right (A M : Tree) :
    ∀ p q : ptr, (mergeT A (M.setPar p)).setPar q = (mergeT A M).setPar q := by
  induction A, M using mergeT.induct with
  | case1 r => intro p q; simp
  | case2 ll a dl lr => intro p q; rfl
  | case3 ll a dl lr rl b dr rr hp ih =>
    intro p q
    have e := ih p (some a)
    have esz := congrArg Tree.sz e
    simp only [Tree.setPar_sz] at esz
    have hp' : dl.pri > ({ dr with par := p } : Info).pri := hp
    have e' : (mergeT lr (.node rl b { dr with par := p } rr)).setPar (some a) =
        (mergeT lr (.node rl b dr rr)).setPar (some a) := e
    have esz' : (mergeT lr (.node rl b { dr with par := p } rr)).sz =
        (mergeT lr (.node rl b dr rr)).sz := esz
    rw [Tree.setPar, mergeT_node_gt hp, mergeT_node_gt hp', e', esz']
  | case4 ll a dl lr rl b dr rr hp _ =>
    intro p q
    have hp' : ¬ dl.pri > ({ dr with par := p } : Info).pri := hp
    rw [Tree.setPar, mergeT_node_le hp, mergeT_node_le hp']
    rfl

theorem mergeT_sz_setPar_left (M C : Tree) (p : ptr) :
    (mergeT (M.setPar p) C).sz = (mergeT M C).sz := by
  have := congrArg Tree.sz (mergeT_setPar_left M C p none)
  simpa using this

theorem mergeT_sz_setPar_right (A M : Tree) (p : ptr) :
    (mergeT A (M.setPar p)).sz = (mergeT A M).sz := by
  have := congrArg Tree.sz (mergeT_setPar_right A M p none)
  simpa using this

theorem mergeT_assoc_aux : ∀ (n : Nat) (A B C : Tree), A.size + B.size + C.size = n →
    mergeT (mergeT A B) C = mergeT A (mergeT B C) := by
  intro n
  induction n using Nat.strong_induction_on with
  | _ n ih =>
    intro A B C hn
    cases A with
    | nil => simp
    | node Al a da Ar =>
    cases B with
    | nil => simp
    | node Bl b db Br =>
    cases C with
    | nil => simp
    | node Cl c dc Cr =>
      simp only [Tree.size] at hn
      by_cases hab : da.pri > db.pri
      · by_cases hac : da.pri > dc.pri
        · -- the root of `A` wins twice
          have IH := ih (Ar.size + (Tree.node Bl b db Br).size + (Tree.node Cl c dc Cr).size)
            (by simp only [Tree.size]; omega) Ar (.node Bl b db Br) (.node Cl c dc Cr) rfl
          obtain ⟨Nl, m, dn, Nr, hN, hlt⟩ : ∃ Nl m dn Nr,
              mergeT (.node Bl b db Br) (.node Cl c dc Cr) = .node Nl m dn Nr ∧
                da.pri > dn.pri := by
            by_cases hbc : db.pri > dc.pri
            · exact ⟨_, _, _, _, mergeT_node_gt hbc, hab⟩
            · exact ⟨_, _, _, _, mergeT_node_le hbc, hac⟩
          rw [mergeT_node_gt hab]
          have hac' : ∀ s, ({ da with sz := s } : Info).pri > dc.pri := fun _ => hac
          rw [mergeT_node_gt (hac' _), hN, mergeT_node_gt hlt, ← hN]
          rw [mergeT_setPar_left, mergeT_sz_setPar_left, IH]
          simp
        · -- the root of `C` wins against `A`, hence against `B`
          have hbc : ¬ db.pri > dc.pri := by
            intro hbc
            exact hac (lt_trans hbc hab)
          have IH := ih ((Tree.node Al a da Ar).size + (Tree.node Bl b db Br).size + Cl.size)
            (by simp only [Tree.size]; omega) (.node Al a da Ar) (.node Bl b db Br) Cl rfl
          rw [mergeT_node_le hbc]
          have hac' : ∀ s, ¬ da.pri > ({ dc with sz := s } : Info).pri := fun _ => hac
          rw [mergeT_node_le (hac' _)]
          rw [mergeT_setPar_right, mergeT_sz_setPar_right, ← IH]
          obtain ⟨Nl, m, dn, Nr, hN, hle⟩ : ∃ Nl m dn Nr,
              mergeT (.node Al a da Ar) (.node Bl b db Br) = .node Nl m dn Nr ∧
                ¬ dn.pri > dc.pri := ⟨_, _, _, _, mergeT_node_gt hab, hac⟩
          rw [hN, mergeT_node_le hle]
          simp
      · by_cases hbc : db.pri > dc.pri
        · -- the root of `B` wins against both
          rw [mergeT_node_le hab, mergeT_node_gt hbc]
          have hbc' : ∀ s, ({ db with sz := s } : Info).pri > dc.pri := fun _ => hbc
          have hab' : ∀ s, ¬ da.pri > ({ db with sz := s } : Info).pri := fun _ => hab
          rw [mergeT_node_gt (hbc' _), mergeT_node_le (hab' _)]
          rw [mergeT_setPar_left, mergeT_sz_setPar_left, mergeT_setPar_right,
            mergeT_sz_setPar_right]
          simp
        · -- the root of `C` wins against `B`, hence against `A`
          have hac : ¬ da.pri > dc.pri := by
            intro hac
            exact hab (lt_of_le_of_lt (not_lt.1 hbc) hac)
          have IH := ih ((Tree.node Al a da Ar).size + (Tree.node Bl b db Br).size + Cl.size)
            (by simp only [Tree.size]; omega) (.node Al a da Ar) (.node Bl b db Br) Cl rfl
          rw [mergeT_node_le hbc]
          have hac' : ∀ s, ¬ da.pri > ({ dc with sz := s } : Info).pri := fun _ => hac
          rw [mergeT_node_le (hac' _)]
          rw [mergeT_setPar_right, mergeT_sz_setPar_right, ← IH]
          obtain ⟨Nl, m, dn, Nr, hN, hle⟩ : ∃ Nl m dn Nr,
              mergeT (.node Al a da Ar) (.node Bl b db Br) = .node Nl m dn Nr ∧
                ¬ dn.pri > dc.pri := ⟨_, _, _, _, mergeT_node_le hab, hbc⟩
          rw [hN, mergeT_node_le hle]
          simp

/-- On shapes `merge` is associative, parent links and cached sizes included. -/
theorem mergeT_assoc (A B C : Tree) : mergeT (mergeT A B) C = mergeT A (mergeT B C) :=
  mergeT_assoc_aux _ A B C rfl

theorem Rep.agree {h h' : Mem} {t : Tree} (rep : Rep h t) (rep' : Rep h' t) :
    ∀ x ∈ t.addrs, h x = h' x := by
  induction t with
  | nil => intro x hx; simp [Tree.addrs] at hx
  | node l a d r ihl ihr =>
    intro x hx
    simp only [Tree.addrs, List.mem_append, List.mem_cons] at hx
    rcases hx with hx | rfl | hx
    · exact ihl rep.2.1 rep'.2.1 x hx
    · rw [rep.1, rep'.1]
    · exact ihr rep.2.2 rep'.2.2 x hx

/-- C17. `merge` is associative: if the memory holds three treaps `A`, `B`, `C` with
pairwise disjoint nodes (any keys, any priorities, ties included, no heap order
required), then with enough fuel `merge(merge(A, B), C)` and `merge(A, merge(B, C))`
return the same root and leave the same memory: every cell has the same links, key,
priority, cached size and parent link in both. -/
theorem merge_associative (h : Mem) (A B C : Tree) (f : Nat)
    (hA : Rep h A) (hB : Rep h B) (hC : Rep h C)
    (nd : (A.addrs ++ B.addrs ++ C.addrs).Nodup) (hf : A.size + B.size + C.size ≤ f) :
    ∃ h1 p1 h1' q1 h2 r,
      merge h f A.root B.root = Res.ok (h1, p1) ∧ merge h1 f p1 C.root = Res.ok (h2, r) ∧
      merge h f B.root C.root = Res.ok (h1', q1) ∧ merge h1' f A.root q1 = Res.ok (h2, r) := by
  have ndAB : (A.addrs ++ B.addrs).Nodup := (List.nodup_append.1 nd).1
  have ndBC : (B.addrs ++ C.addrs).Nodup := by
    rw [List.append_assoc] at nd
    exact (List.nodup_append.1 nd).2.1
  have disC : ∀ x ∈ C.addrs, x ∉ A.addrs ∧ x ∉ B.addrs := by
    intro x hx
    have := (List.nodup_append.1 nd).2.2
    constructor
    · exact fun hxa => this (List.mem_append.2 (Or.inl hxa)) hx
    · exact fun hxb => this (List.mem_append.2 (Or.inr hxb)) hx
  have disA : ∀ x ∈ A.addrs, x ∉ B.addrs ∧ x ∉ C.addrs := by
    intro x hx
    rw [List.append_assoc] at nd
    have := (List.nodup_append.1 nd).2.2
    constructor
    · exact fun hxb => this hx (List.mem_append.2 (Or.inl hxb))
    · exact fun hxc => this hx (List.mem_append.2 (Or.inr hxc))
  -- left grouping
  obtain ⟨h1, e1, rep1, fr1⟩ := merge_rep hA hB ndAB (f := f) (by omega)
  have hC1 : Rep h1 C := hC.congr (fun x hx => fr1 x (disC x hx).1 (disC x hx).2)
  obtain ⟨h2, e2, rep2, fr2⟩ := merge_rep rep1 hC1 (by rw [mergeT_addrs]; exact nd) (f := f)
    (by rw [mergeT_size]; omega)
  -- right grouping
  obtain ⟨h1', e1', rep1', fr1'⟩ := merge_rep hB hC ndBC (f := f) (by omega)
  have hA1 : Rep h1' A := hA.congr (fun x hx => fr1' x (disA x hx).1 (disA x hx).2)
  obtain ⟨h2', e2', rep2', fr2'⟩ := merge_rep hA1 rep1'
    (by rw [mergeT_addrs, ← List.append_assoc]; exact nd) (f := f)
    (by rw [mergeT_size]; omega)
  rw [← mergeT_assoc] at e2' rep2'
  have hmem : h2' = h2 := by
    funext x
    by_cases hx : x ∈ (mergeT (mergeT A B) C).addrs
    · exact rep2'.agree rep2 x hx
    · simp only [mergeT_addrs, List.mem_append, not_or] at hx
      rw [fr2 x (by rw [mergeT_addrs]; simp [hx.1.1, hx.1.2]) hx.2, fr1 x hx.1.1 hx.1.2,
        fr2' x hx.1.1 (by rw [mergeT_addrs]; simp [hx.1.2, hx.2]), fr1' x hx.1.2 hx.2]
  rw [hmem] at e2'
  exact ⟨h1, _, h1', _, h2, _, e1, e2, e1', e2'⟩

/-- C17 at the three example treaps `exL`, `exR`, `exC`. -/
theorem merge_associative_witness :
    (Rep exMem3 exL ∧ Rep exMem3 exR ∧ Rep exMem3 exC ∧
      (exL.addrs ++ exR.addrs ++ exC.addrs).Nodup) ∧
    ∃ h1 p1 h1' q1 h2 r,
      merge exMem3 7 exL.root exR.root = Res.ok (h1, p1) ∧
      merge h1 7 p1 exC.root = Res.ok (h2, r) ∧
      merge exMem3 7 exR.root exC.root = Res.ok (h1', q1) ∧
      merge h1' 7 exL.root q1 = Res.ok (h2, r) :=
  ⟨by decide, merge_associative exMem3 exL exR exC 7 (by decide) (by decide) (by decide)
    (by decide) (by decide)⟩

/-! ## Canonical shape -/

@[simp] theorem Tree.setPar_kps (p : ptr) (t : Tree) : (t.setPar p).kps = t.kps := by
  cases t <;> rfl

@[simp] theorem pullT_kps (t : Tree) : (pullT t).kps = t.kps := by
  cases t <;> simp [pullT, Tree.kps]

theorem Rep.cells {h : Mem} {t : Tree} (rep : Rep h t) :
    ∀ xn ∈ t.cells, h xn.1 = some xn.2 := by
  induction t with
  | nil => intro xn hxn; simp [Tree.cells] at hxn
  | node l a d r ihl ihr =>
    intro xn hxn
    simp only [Tree.cells, List.mem_append, List.mem_cons] at hxn
    rcases hxn with hxn | rfl | hxn
    · exact ihl rep.2.1 xn hxn
    · exact rep.1
    · exact ihr rep.2.2 xn hxn

end Treap
